import Mathlib

/-!
Verification of the anti-forensic trace-cleaner detection pipeline.

This file gives a shallow embedding of the core analysis pipeline:

* `classify_block`  (src/engine/classifier.py)
* `aggregate`       (src/engine/aggregator.py)
* `compute_score`   (src/engine/scorer.py)
* `pipelineRegions` / `pipelineStats` (src/scanner.py, `run_scan` phases 2-3)

Python floats are modelled as exact rationals (`ℚ`).  The transcendental
signal values (Shannon entropies and the distribution-uniformity standard
deviation, which involve `log2` and `sqrt`) are passed to the classifier as
explicit parameters in `EntropySignals`; every other statistic (byte counts,
zero/FF fractions, dominant byte, bucket sums, ASCII runs) is computed
exactly from the data, mirroring `_stats_from_data` and
`has_legitimate_structure`.  Python's `round(x, 3)` is modelled by `round3`
(round half up; every statement proved here is insensitive to the tie rule).
Block ids are natural numbers, matching the reader contract ("zero-based
sequential index").
-/

set_option maxRecDepth 8000

/-- Shannon-entropy-like float signals consumed by `classify_block`.
They are the floating-point outputs of `shannon_entropy` (on the whole
block, on the non-zero bytes, on the non-FF bytes) and of
`distribution_uniformity`; being transcendental they are inputs of the
embedding rather than recomputed. -/
structure EntropySignals where
  entropy        : ℚ
  nonZeroEntropy : ℚ
  nonFFEntropy   : ℚ
  uniformity     : ℚ
deriving DecidableEq, Repr

/-- Classification labels, `classifier.py` top comment.  The Python code uses
strings drawn from this closed set. -/
inductive WipeType where
  | NORMAL
  | ZERO_WIPE
  | FF_WIPE
  | RANDOM_WIPE
  | MULTI_PASS
  | LIKELY_ZERO_WIPE
  | LIKELY_FF_WIPE
  | LOW_ENTROPY_SUSPECT
  | UNALLOCATED
deriving DecidableEq, Repr, Inhabited

open WipeType

/-- Mirrors the `BlockResult` dataclass of `classifier.py`.  The source
fields `zero_ratio` and `ff_ratio` are named `zeroFrac`/`ffFrac` here. -/
structure BlockResult where
  block_id      : ℕ
  offset        : ℕ
  wipe_type     : WipeType
  entropy       : ℚ
  confidence    : ℚ
  dominant_byte : ℕ
  dominant_pct  : ℚ
  is_suspicious : Bool
  zeroFrac      : ℚ
  ffFrac        : ℚ
deriving DecidableEq, Repr, Inhabited

/-- Mirrors the `Region` dataclass of `aggregator.py`. -/
structure Region where
  id           : ℕ
  start_offset : ℕ
  end_offset   : ℕ
  size         : ℕ
  wipe_type    : WipeType
  block_count  : ℕ
  avg_entropy  : ℚ
  confidence   : ℚ
  blocks       : List ℕ
deriving DecidableEq, Repr, Inhabited

/-- Python's `round(q, 3)` modelled over ℚ (round half up). -/
def round3 (q : ℚ) : ℚ := (⌊q * 1000 + 1/2⌋ : ℚ) / 1000

/-- Python's `int(round(q))` modelled over ℚ (round half up). -/
def roundInt (q : ℚ) : ℤ := ⌊q + 1/2⌋

-- ─────────────────────────────────────────────────────────────────────────
-- Classifier (src/engine/classifier.py)
-- ─────────────────────────────────────────────────────────────────────────

/-- Threshold constants of `classifier.py`. -/
def ZERO_FF_STRONG_MIN  : ℚ := 90/100
def ZERO_FF_PARTIAL_MIN : ℚ := 60/100
def ENTROPY_FILL_MAX    : ℚ := 20/100
def ENTROPY_RANDOM_MIN  : ℚ := 760/100
def UNIFORMITY_WIPE_MAX : ℚ := 140/10000
def ENTROPY_LOW_MIN     : ℚ := 21/100
def ENTROPY_LOW_MAX     : ℚ := 150/100
def SUSPECT_DOMINANT_MAX : ℚ := 85/100
def MULTI_PASS_LO       : ℚ := 35/10
def MULTI_PASS_HI       : ℚ := 65/10
def MULTI_PASS_UNIF_MAX : ℚ := 80/10000

/-- The `COMPRESSED_MAGIC` byte-value set of `classifier.py`. -/
def COMPRESSED_MAGIC : List ℕ :=
  [0x50, 0x4B, 0x1F, 0x8B, 0xFF, 0xD8, 0x89, 0x50, 0x4E, 0x47,
   0x25, 0x50, 0x44, 0x46, 0x7F, 0x45, 0x4C, 0x46, 0x4D, 0x5A,
   0x52, 0x61, 0x72, 0x21, 0xFD, 0x37, 0x7A, 0x58, 0x42, 0x5A, 0x68]

/-- Number of occurrences of byte value `i` in `data`. -/
def byteCount (data : List ℕ) (i : ℕ) : ℕ := data.count i

/-- Normalized frequency of byte value `i` (`freq[i]` in the source). -/
def byteFreq (data : List ℕ) (i : ℕ) : ℚ :=
  (byteCount data i : ℚ) / (data.length : ℚ)

/-- Dominant byte: first argmax of the byte counts over `0..255`, mirroring
`max(range(256), key=lambda i: freq[i])` / `np.argmax` (ties choose the
smallest index). -/
def dominantByte (data : List ℕ) : ℕ :=
  (List.range 256).foldl
    (fun best i => if byteCount data best < byteCount data i then i else best) 0

/-- The printable-ASCII run detector of `has_legitimate_structure`
(check 3): a run of ≥ 64 consecutive bytes in `[0x20, 0x7E]`. -/
def asciiRun : ℕ → List ℕ → Bool
  | _, [] => false
  | run, b :: rest =>
    if 0x20 ≤ b ∧ b ≤ 0x7E then
      if 64 ≤ run + 1 then true else asciiRun (run + 1) rest
    else asciiRun 0 rest

/-- Sum of `freq[32*i .. 32*i+31]` — one 32-value bucket of check 2. -/
def bucketSum (data : List ℕ) (i : ℕ) : ℚ :=
  (((List.range 32).map (fun j => byteCount data (32 * i + j))).sum : ℚ)
    / (data.length : ℚ)

/-- Faithful translation of `has_legitimate_structure` (`classifier.py`).
The fourth check in the source is unreachable (it follows an unconditional
`return False`) and is omitted, as the spec also records. -/
def has_legitimate_structure (data : List ℕ) : Bool :=
  if (data.take 16).any (fun b => COMPRESSED_MAGIC.contains b) then true
  else if (List.range 8).any (fun i => decide (bucketSum data i > (32/256 : ℚ) * (28/10))) then true
  else asciiRun 0 data

/-- `_fill_conf` of `classifier.py`. -/
def fillConf (dominant_frac entropy : ℚ) : ℚ :=
  let dom_score := (dominant_frac - ZERO_FF_STRONG_MIN) / (1 - ZERO_FF_STRONG_MIN)
  let ent_score := 1 - min (entropy / (1/2)) 1
  round3 (min (55/100 + dom_score * (28/100) + ent_score * (17/100)) 1)

/-- `_partial_conf` of `classifier.py`. -/
def partialConf (dominant_frac : ℚ) : ℚ :=
  let scaled := (dominant_frac - ZERO_FF_PARTIAL_MIN) / (ZERO_FF_STRONG_MIN - ZERO_FF_PARTIAL_MIN)
  round3 (40/100 + scaled * (32/100))

/-- `_random_conf` of `classifier.py`. -/
def randomConf (entropy uniformity : ℚ) : ℚ :=
  let ent_score := (entropy - ENTROPY_RANDOM_MIN) / (8 - ENTROPY_RANDOM_MIN)
  let unif_score := 1 - min (uniformity / UNIFORMITY_WIPE_MAX) 1
  round3 (min (58/100 + ent_score * (22/100) + unif_score * (12/100)) (92/100))

/-- The `_result` factory of `classifier.py`. -/
def mkResult (block_id offset : ℕ) (wipe_type : WipeType)
    (entropy confidence : ℚ) (dominant_byte : ℕ) (dominant_pct : ℚ)
    (is_suspicious : Bool) (zeroFrac ffFrac : ℚ) : BlockResult :=
  ⟨block_id, offset, wipe_type, entropy, confidence, dominant_byte,
   dominant_pct, is_suspicious, zeroFrac, ffFrac⟩

/-- Faithful translation of `classify_block` (`classifier.py`), with the
transcendental signal values supplied in `sig`.  The decision tree and all
guards follow the source line by line; the exact statistics
(`zero_ratio`, `ff_ratio`, dominant byte and share) are recomputed from
`data` as in `_stats_from_data` (numpy path: no 4-decimal rounding of the
ratios).  `data.any (· ≠ 0)` mirrors the Python truthiness test on the
filtered byte strings `non_zero` / `non_ff`. -/
def classify_block (block_id offset : ℕ) (data : List ℕ)
    (sig : EntropySignals) : BlockResult :=
  if data = [] then
    mkResult block_id offset NORMAL 0 1 0 1 false 0 0
  else
    let entropy := sig.entropy
    let zeroFrac := byteFreq data 0
    let ffFrac := byteFreq data 255
    let dominant_byte := dominantByte data
    let dominant_pct := byteFreq data dominant_byte
    if zeroFrac ≥ ZERO_FF_STRONG_MIN ∧ entropy ≤ ENTROPY_FILL_MAX then
      mkResult block_id offset ZERO_WIPE entropy (fillConf zeroFrac entropy)
        dominant_byte dominant_pct true zeroFrac ffFrac
    else if ffFrac ≥ ZERO_FF_STRONG_MIN ∧ entropy ≤ ENTROPY_FILL_MAX then
      mkResult block_id offset FF_WIPE entropy (fillConf ffFrac entropy * (96/100))
        dominant_byte dominant_pct true zeroFrac ffFrac
    else if ZERO_FF_PARTIAL_MIN ≤ zeroFrac ∧ zeroFrac < ZERO_FF_STRONG_MIN then
      if data.any (fun b => b ≠ 0x00) ∧ sig.nonZeroEntropy > 35/10 then
        mkResult block_id offset LIKELY_ZERO_WIPE entropy (partialConf zeroFrac)
          dominant_byte dominant_pct true zeroFrac ffFrac
      else
        mkResult block_id offset NORMAL entropy (82/100)
          dominant_byte dominant_pct false zeroFrac ffFrac
    else if ZERO_FF_PARTIAL_MIN ≤ ffFrac ∧ ffFrac < ZERO_FF_STRONG_MIN then
      if data.any (fun b => b ≠ 0xFF) ∧ sig.nonFFEntropy > 35/10 then
        mkResult block_id offset LIKELY_FF_WIPE entropy (partialConf ffFrac)
          dominant_byte dominant_pct true zeroFrac ffFrac
      else
        mkResult block_id offset NORMAL entropy (82/100)
          dominant_byte dominant_pct false zeroFrac ffFrac
    else if entropy ≥ ENTROPY_RANDOM_MIN then
      if sig.uniformity ≤ UNIFORMITY_WIPE_MAX then
        if has_legitimate_structure data then
          mkResult block_id offset NORMAL entropy (72/100)
            dominant_byte dominant_pct false zeroFrac ffFrac
        else
          mkResult block_id offset RANDOM_WIPE entropy (randomConf entropy sig.uniformity)
            dominant_byte dominant_pct true zeroFrac ffFrac
      else
        mkResult block_id offset NORMAL entropy (87/100)
          dominant_byte dominant_pct false zeroFrac ffFrac
    else if ENTROPY_LOW_MIN < entropy ∧ entropy ≤ ENTROPY_LOW_MAX then
      if dominant_pct ≤ SUSPECT_DOMINANT_MAX ∧ sig.uniformity < 20/1000 then
        mkResult block_id offset LOW_ENTROPY_SUSPECT entropy (52/100)
          dominant_byte dominant_pct true zeroFrac ffFrac
      else
        mkResult block_id offset NORMAL entropy (82/100)
          dominant_byte dominant_pct false zeroFrac ffFrac
    else if MULTI_PASS_LO ≤ entropy ∧ entropy ≤ MULTI_PASS_HI ∧ sig.uniformity < MULTI_PASS_UNIF_MAX then
      mkResult block_id offset MULTI_PASS entropy (52/100)
        dominant_byte dominant_pct true zeroFrac ffFrac
    else if dominant_byte = 0x00 ∧ 70/100 ≤ dominant_pct ∧ dominant_pct < ZERO_FF_STRONG_MIN then
      mkResult block_id offset UNALLOCATED entropy (48/100)
        dominant_byte dominant_pct false zeroFrac ffFrac
    else
      mkResult block_id offset NORMAL entropy (90/100)
        dominant_byte dominant_pct false zeroFrac ffFrac

/-- The suspicious label set of the spec's data model (`is_suspicious` ⇔
membership). -/
def suspiciousTypes : List WipeType :=
  [ZERO_WIPE, FF_WIPE, RANDOM_WIPE, MULTI_PASS,
   LIKELY_ZERO_WIPE, LIKELY_FF_WIPE, LOW_ENTROPY_SUSPECT]

section
attribute [local semireducible] Rat.add Rat.mul Rat.sub Rat.inv Rat.ofScientific
example : (classify_block 0 0 [] ⟨0, 0, 0, 0⟩).wipe_type = NORMAL := by decide
example : (classify_block 0 0 (List.replicate 20 0) ⟨0, 0, 0, 0⟩).wipe_type = ZERO_WIPE := by decide
example : (classify_block 0 0 (List.replicate 20 0) ⟨0, 0, 0, 0⟩).confidence = 1 := by decide
end

-- ─────────────────────────────────────────────────────────────────────────
-- Aggregator (src/engine/aggregator.py)
-- ─────────────────────────────────────────────────────────────────────────

/-- Tuning constants of `aggregator.py`. -/
def BLOCK_SIZE : ℕ := 512
def MIN_REGION_BLOCKS : ℕ := 16
def MAX_NORMAL_GAP : ℕ := 8
def MULTI_PASS_MIN_BANDS : ℕ := 3
def MULTI_PASS_GAP_BLOCKS : ℕ := 4
def ISOLATION_WINDOW : ℕ := 50

/-- `PARTIAL_WIPE_TYPES` of `aggregator.py`. -/
def PARTIAL_WIPE_TYPES : List WipeType :=
  [LIKELY_ZERO_WIPE, LIKELY_FF_WIPE, LOW_ENTROPY_SUSPECT]

/-- `STRONG_WIPE_TYPES` of `aggregator.py`. -/
def STRONG_WIPE_TYPES : List WipeType :=
  [ZERO_WIPE, FF_WIPE, RANDOM_WIPE, MULTI_PASS]

/-- Mean of the `entropy` fields of a non-empty run (`sum(...) / len(...)`). -/
def avgEntropyOf (run : List BlockResult) : ℚ :=
  ((run.map BlockResult.entropy).sum) / (run.length : ℚ)

/-- Builds the Region emitted for one run of `_merge_consecutive`; the run is
`b :: tail`, structurally non-empty as in the source. -/
def mkRunRegion (rid : ℕ) (b : BlockResult) (tail : List BlockResult) : Region :=
  let run := b :: tail
  let start_off := b.block_id * BLOCK_SIZE
  let end_off := (run.getLast (List.cons_ne_nil b tail)).block_id * BLOCK_SIZE + BLOCK_SIZE - 1
  { id := rid
    start_offset := start_off
    end_offset := end_off
    size := end_off - start_off + 1
    wipe_type := b.wipe_type
    block_count := run.length
    avg_entropy := avgEntropyOf run
    confidence := 0
    blocks := run.map BlockResult.block_id }

/-- The inner-while predicate of `_merge_consecutive`: the next block extends
the current run iff it is suspicious and carries the identical wipe type. -/
def sameRun (wt : WipeType) (x : BlockResult) : Bool :=
  x.is_suspicious && (x.wipe_type == wt)

/-- Fuelled body of `_merge_consecutive`; the fuel only bounds the number of
loop iterations (the loop consumes at least one block per iteration), so any
fuel of at least the list length computes the loop exactly.  Structural
recursion on the fuel keeps the definition kernel-reducible. -/
def mergeConsecutiveF (rid : ℕ) : ℕ → List BlockResult → List Region
  | 0, _ => []
  | _ + 1, [] => []
  | fuel + 1, b :: rest =>
    if b.is_suspicious then
      mkRunRegion rid b (rest.takeWhile (sameRun b.wipe_type)) ::
        mergeConsecutiveF (rid + 1) fuel (rest.dropWhile (sameRun b.wipe_type))
    else
      mergeConsecutiveF rid fuel rest

/-- The fuelled merge loop on the empty list. -/
theorem mergeConsecutiveF_nil (rid fuel : ℕ) : mergeConsecutiveF rid fuel [] = [] := by
  cases fuel <;> rfl

/-- Fuel is irrelevant above the list length. -/
theorem mergeConsecutiveF_fuel (rid : ℕ) (fuel fuel' : ℕ) (l : List BlockResult)
    (h : l.length ≤ fuel) (h' : l.length ≤ fuel') :
    mergeConsecutiveF rid fuel l = mergeConsecutiveF rid fuel' l := by
  induction fuel using Nat.strong_induction_on generalizing rid fuel' l with
  | _ fuel ih =>
    match fuel, fuel', l with
    | _, _, [] => simp [mergeConsecutiveF_nil]
    | 0, _, b :: rest => simp at h
    | _ + 1, 0, b :: rest => simp at h'
    | fuel + 1, fuel' + 1, b :: rest =>
      simp only [mergeConsecutiveF]
      have hd : (rest.dropWhile (sameRun b.wipe_type)).length ≤ rest.length :=
        (List.dropWhile_sublist _).length_le
      simp only [List.length_cons, Nat.succ_le_succ_iff] at h h'
      split
      · exact congrArg _ (ih fuel (Nat.lt_succ_self _) _ _ _ (le_trans hd h) (le_trans hd h'))
      · exact ih fuel (Nat.lt_succ_self _) _ _ _ h h'

/-- Faithful translation of `_merge_consecutive` (`aggregator.py`): group
list-consecutive suspicious blocks of identical wipe type into runs and emit
one Region per run; non-suspicious blocks break runs. -/
def mergeConsecutive (rid : ℕ) (l : List BlockResult) : List Region :=
  mergeConsecutiveF rid l.length l

/-- Unfolding equation of `mergeConsecutive` on a cons cell. -/
theorem mergeConsecutive_cons (rid : ℕ) (b : BlockResult) (rest : List BlockResult) :
    mergeConsecutive rid (b :: rest) =
      if b.is_suspicious then
        mkRunRegion rid b (rest.takeWhile (sameRun b.wipe_type)) ::
          mergeConsecutive (rid + 1) (rest.dropWhile (sameRun b.wipe_type))
      else
        mergeConsecutive rid rest := by
  show mergeConsecutiveF rid (rest.length + 1) (b :: rest) = _
  rw [mergeConsecutiveF]
  split
  · exact congrArg _ (mergeConsecutiveF_fuel _ rest.length _ _
      (List.dropWhile_sublist _).length_le le_rfl)
  · exact mergeConsecutiveF_fuel _ rest.length _ _ (Nat.le_refl _) (Nat.le_refl _)

section
attribute [local semireducible] Rat.add Rat.mul Rat.sub Rat.inv Rat.ofScientific
example :
    mergeConsecutive 0
      [⟨0, 0, ZERO_WIPE, 0, 1, 0, 1, true, 1, 0⟩,
       ⟨1, 512, ZERO_WIPE, 0, 1, 0, 1, true, 1, 0⟩,
       ⟨2, 1024, NORMAL, 4, 9/10, 7, 1/10, false, 0, 0⟩] =
    [{ id := 0, start_offset := 0, end_offset := 1023, size := 1024,
       wipe_type := ZERO_WIPE, block_count := 2, avg_entropy := 0,
       confidence := 0, blocks := [0, 1] }] := by decide
end

/-- The inter-region gap of `_absorb_noise`, in blocks:
`curr.blocks[0] - prev.blocks[-1] - 1`, with the source's fallback values
`-999` / `9999` for empty block lists (computed in ℤ as in Python). -/
def gapBlocks (prev curr : Region) : ℤ :=
  (curr.blocks.head?.elim (9999 : ℤ) (fun b => (b : ℤ))) -
  (prev.blocks.getLast?.elim (-999 : ℤ) (fun b => (b : ℤ))) - 1

/-- The fused region built in the gap-absorption branch of `_absorb_noise`:
the gap block ids `range(prev_last+1, curr_first)` are added to the member
list, and `avg_entropy` is recomputed over the ids of the two original
regions only (`all_ids = prev.blocks + curr.blocks` in the source), keeping
those in range of the classifier output. -/
def fuseRegions (prev curr : Region) (all_blocks : List BlockResult) : Region :=
  let prev_last := prev.blocks.getLast?.getD 0
  let curr_first := curr.blocks.head?.getD 0
  let gap_block_ids := List.range' (prev_last + 1) (curr_first - (prev_last + 1))
  let merged_blocks := prev.blocks ++ gap_block_ids ++ curr.blocks
  let all_ids := prev.blocks ++ curr.blocks
  let entropies := (all_ids.filter (fun bid => decide (bid < all_blocks.length))).map
      (fun bid => ((all_blocks.get? bid).getD default).entropy)
  let avg_entropy := if entropies = [] then 0 else entropies.sum / (entropies.length : ℚ)
  { id := prev.id
    start_offset := prev.start_offset
    end_offset := curr.end_offset
    size := curr.end_offset - prev.start_offset + 1
    wipe_type := prev.wipe_type
    block_count := merged_blocks.length
    avg_entropy := avg_entropy
    confidence := 0
    blocks := merged_blocks }

/-- Loop of `_absorb_noise`: `prev` is the last element of the accumulator
`merged`; fusing replaces it in place, otherwise `curr` is appended. -/
def absorbGo (all_blocks : List BlockResult) (prev : Region) :
    List Region → List Region
  | [] => [prev]
  | curr :: rest =>
    if prev.wipe_type = curr.wipe_type ∧ gapBlocks prev curr ≤ (MAX_NORMAL_GAP : ℤ) then
      absorbGo all_blocks (fuseRegions prev curr all_blocks) rest
    else
      prev :: absorbGo all_blocks curr rest

/-- Faithful translation of `_absorb_noise` (`aggregator.py`). -/
def absorbNoise (regions : List Region) (all_blocks : List BlockResult) :
    List Region :=
  match regions with
  | [] => []
  | r0 :: rest => absorbGo all_blocks r0 rest

/-- Faithful translation of `_filter_by_size` (`aggregator.py`). -/
def filterBySize (regions : List Region) : List Region :=
  regions.filter (fun r => decide (MIN_REGION_BLOCKS ≤ r.block_count))

/-- The adjacency test of `_detect_multi_pass`:
`(curr.start_offset - prev.end_offset - 1) // BLOCK_SIZE ≤ 4` with Python
floor division (`Int.fdiv`). -/
def mpAdjacent (prev curr : Region) : Prop :=
  Int.fdiv ((curr.start_offset : ℤ) - (prev.end_offset : ℤ) - 1) (BLOCK_SIZE : ℤ)
    ≤ (MULTI_PASS_GAP_BLOCKS : ℤ)

instance (prev curr : Region) : Decidable (mpAdjacent prev curr) := by
  unfold mpAdjacent; infer_instance

/-- The alternation test of `_detect_multi_pass`. -/
def mpAlternating (prev curr : Region) : Prop :=
  curr.wipe_type ≠ prev.wipe_type ∧
  curr.wipe_type ∈ STRONG_WIPE_TYPES ∧ prev.wipe_type ∈ STRONG_WIPE_TYPES

instance (prev curr : Region) : Decidable (mpAlternating prev curr) := by
  unfold mpAlternating; infer_instance

/-- The inner while loop of `_detect_multi_pass`: starting from the band
`prev`, collect the maximal chain of adjacent alternating strong regions.
Returns the collected extension and the remaining regions. -/
def bandExtend (prev : Region) : List Region → List Region × List Region
  | [] => ([], [])
  | curr :: rest =>
    if mpAdjacent prev curr ∧ mpAlternating prev curr then
      let (g, rem) := bandExtend curr rest
      (curr :: g, rem)
    else
      ([], curr :: rest)

/-- The remainder returned by `bandExtend` is a suffix of the input, hence
no longer than it. -/
theorem bandExtend_snd_length_le (prev : Region) (l : List Region) :
    (bandExtend prev l).2.length ≤ l.length := by
  induction l generalizing prev with
  | nil => simp [bandExtend]
  | cons c cs ih =>
    rw [bandExtend]
    split
    · exact le_trans (ih c) (Nat.le_succ _)
    · simp

/-- The Region synthesized for a confirmed band group (non-empty by
construction: `first :: ext`). -/
def mkMultiPassRegion (first : Region) (ext : List Region)
    (all_blocks : List BlockResult) : Region :=
  let band_group := first :: ext
  let all_block_ids := (band_group.map Region.blocks).flatten
  let entropies := (all_block_ids.filter (fun bid => decide (bid < all_blocks.length))).map
      (fun bid => ((all_blocks.get? bid).getD default).entropy)
  let avg_e := if entropies = [] then 0 else entropies.sum / (entropies.length : ℚ)
  { id := 0
    start_offset := first.start_offset
    end_offset := (band_group.getLast (List.cons_ne_nil first ext)).end_offset
    size := (band_group.getLast (List.cons_ne_nil first ext)).end_offset
              - first.start_offset + 1
    wipe_type := MULTI_PASS
    block_count := (band_group.map Region.block_count).sum
    avg_entropy := avg_e
    confidence := 0
    blocks := all_block_ids }

/-- Fuelled body of the outer while loop of `_detect_multi_pass`
(structural recursion on the fuel keeps it kernel-reducible): if the band
group starting at the head reaches `MULTI_PASS_MIN_BANDS`, the whole group
is replaced by a synthesized region and scanning resumes after it; otherwise
the head is kept and scanning resumes at the next region. -/
def detectGoF (all_blocks : List BlockResult) : ℕ → List Region → List Region
  | 0, _ => []
  | _ + 1, [] => []
  | fuel + 1, r :: rest =>
    if MULTI_PASS_MIN_BANDS ≤ (r :: (bandExtend r rest).1).length then
      mkMultiPassRegion r (bandExtend r rest).1 all_blocks ::
        detectGoF all_blocks fuel (bandExtend r rest).2
    else
      r :: detectGoF all_blocks fuel rest

/-- The fuelled detection loop on the empty list. -/
theorem detectGoF_nil (all_blocks : List BlockResult) (fuel : ℕ) :
    detectGoF all_blocks fuel [] = [] := by
  cases fuel <;> rfl

/-- Fuel is irrelevant above the list length. -/
theorem detectGoF_fuel (all_blocks : List BlockResult) (fuel fuel' : ℕ)
    (l : List Region) (h : l.length ≤ fuel) (h' : l.length ≤ fuel') :
    detectGoF all_blocks fuel l = detectGoF all_blocks fuel' l := by
  induction fuel using Nat.strong_induction_on generalizing fuel' l with
  | _ fuel ih =>
    match fuel, fuel', l with
    | _, _, [] => simp [detectGoF_nil]
    | 0, _, r :: rest => simp at h
    | _ + 1, 0, r :: rest => simp at h'
    | fuel + 1, fuel' + 1, r :: rest =>
      simp only [detectGoF]
      have hd : (bandExtend r rest).2.length ≤ rest.length :=
        bandExtend_snd_length_le r rest
      simp only [List.length_cons, Nat.succ_le_succ_iff] at h h'
      split
      · exact congrArg _ (ih fuel (Nat.lt_succ_self _) _ _ (le_trans hd h) (le_trans hd h'))
      · exact congrArg _ (ih fuel (Nat.lt_succ_self _) _ _ h h')

/-- The outer while loop of `_detect_multi_pass`. -/
def detectGo (all_blocks : List BlockResult) (l : List Region) : List Region :=
  detectGoF all_blocks l.length l

/-- Unfolding equation of `detectGo` on a cons cell. -/
theorem detectGo_cons (all_blocks : List BlockResult) (r : Region)
    (rest : List Region) :
    detectGo all_blocks (r :: rest) =
      if MULTI_PASS_MIN_BANDS ≤ (r :: (bandExtend r rest).1).length then
        mkMultiPassRegion r (bandExtend r rest).1 all_blocks ::
          detectGo all_blocks (bandExtend r rest).2
      else
        r :: detectGo all_blocks rest := by
  show detectGoF all_blocks (rest.length + 1) (r :: rest) = _
  rw [detectGoF]
  split
  · exact congrArg _ (detectGoF_fuel _ rest.length _ _
      (bandExtend_snd_length_le r rest) le_rfl)
  · exact congrArg _ (detectGoF_fuel _ rest.length _ _ (Nat.le_refl _) (Nat.le_refl _))

/-- Faithful translation of `_detect_multi_pass` (`aggregator.py`),
including the early return for fewer than `MULTI_PASS_MIN_BANDS` regions. -/
def detectMultiPass (regions : List Region) (all_blocks : List BlockResult) :
    List Region :=
  if regions.length < MULTI_PASS_MIN_BANDS then regions
  else detectGo all_blocks regions

/-- The corroboration test of `_suppress_false_positives` for one region:
some strong-wipe block id lies within `±ISOLATION_WINDOW` of the region's
member range. -/
def corroborated (strong_block_ids : List ℕ) (r : Region) : Bool :=
  let first_block := r.blocks.head?.getD 0
  let last_block := r.blocks.getLast?.getD 0
  let window_start := max 0 (first_block - ISOLATION_WINDOW)
  let window_end := last_block + ISOLATION_WINDOW
  strong_block_ids.any (fun bid => decide (window_start ≤ bid) && decide (bid ≤ window_end))

/-- Faithful translation of `_suppress_false_positives` (`aggregator.py`):
non-PARTIAL regions pass through; PARTIAL regions are kept only when
corroborated by a strong-wipe block id. -/
def suppressFalsePositives (regions : List Region) : List Region :=
  let strong_block_ids :=
    ((regions.filter (fun r => decide (r.wipe_type ∈ STRONG_WIPE_TYPES))).map
      Region.blocks).flatten
  regions.filter (fun r =>
    !(decide (r.wipe_type ∈ PARTIAL_WIPE_TYPES)) || corroborated strong_block_ids r)

/-- The `type_adj` table of `_compute_confidence` (default `0.0`). -/
def typeAdj : WipeType → ℚ
  | ZERO_WIPE => 0
  | FF_WIPE => -(2/100)
  | RANDOM_WIPE => -(4/100)
  | MULTI_PASS => -(8/100)
  | LIKELY_ZERO_WIPE => -(12/100)
  | LIKELY_FF_WIPE => -(12/100)
  | LOW_ENTROPY_SUSPECT => -(15/100)
  | _ => 0

/-- Per-region confidence assignment of `_compute_confidence`
(`aggregator.py`); only the `confidence` field changes. -/
def setConfidence (all_blocks : List BlockResult) (r : Region) : Region :=
  let valid_block_ids := r.blocks.filter (fun bid => decide (bid < all_blocks.length))
  if valid_block_ids = [] then { r with confidence := 1/2 }
  else
    let block_confs := valid_block_ids.map
        (fun bid => ((all_blocks.get? bid).getD default).confidence)
    let avg_conf := block_confs.sum / (block_confs.length : ℚ)
    let size_bonus := min ((r.block_count : ℚ) / 512) 1 * (10/100)
    let susp_in_region := (valid_block_ids.filter
        (fun bid => ((all_blocks.get? bid).getD default).is_suspicious)).length
    let density_frac := (susp_in_region : ℚ) / (valid_block_ids.length : ℚ)
    let density_bonus := (density_frac - 1/2) * (10/100)
    { r with confidence :=
        round3 (min (max (avg_conf + size_bonus + density_bonus + typeAdj r.wipe_type) 0) 1) }

/-- Faithful translation of `_compute_confidence` (`aggregator.py`). -/
def computeConfidence (regions : List Region) (all_blocks : List BlockResult) :
    List Region :=
  regions.map (setConfidence all_blocks)

/-- The final id assignment of `aggregate`
(`for i, r in enumerate(scored, 1): r.id = i`). -/
def assignIds (i : ℕ) : List Region → List Region
  | [] => []
  | r :: rest => { r with id := i } :: assignIds (i + 1) rest

/-- Faithful translation of `aggregate` (`aggregator.py`): the six-stage
pipeline plus sequential id assignment starting at 1. -/
def aggregate (results : List BlockResult) : List Region :=
  match results with
  | [] => []
  | _ =>
    let raw := mergeConsecutive 0 results
    let absorbed := absorbNoise raw results
    let sized := filterBySize absorbed
    let with_multi := detectMultiPass sized results
    let clean := suppressFalsePositives with_multi
    let scored := computeConfidence clean results
    assignIds 1 scored

-- ─────────────────────────────────────────────────────────────────────────
-- Scorer (src/engine/scorer.py)
-- ─────────────────────────────────────────────────────────────────────────

/-- Verdict labels of `scorer.py` (`HIGH | MEDIUM | LOW | NEGLIGIBLE`). -/
inductive Verdict where
  | NEGLIGIBLE
  | LOW
  | MEDIUM
  | HIGH
deriving DecidableEq, Repr, Inhabited

open Verdict

/-- Position of a verdict in `verdict_order = ["NEGLIGIBLE", "LOW",
"MEDIUM", "HIGH"]`. -/
def verdictIdx : Verdict → ℕ
  | NEGLIGIBLE => 0
  | LOW => 1
  | MEDIUM => 2
  | HIGH => 3

/-- Inverse of `verdictIdx` (list lookup in `verdict_order`; indices
produced by the scorer are always < 4). -/
def verdictOfIdx : ℕ → Verdict
  | 0 => NEGLIGIBLE
  | 1 => LOW
  | 2 => MEDIUM
  | _ => HIGH

/-- Mirrors the `ScanStats` dataclass of `scorer.py`; `wipe_type_counts` is
the count function over the seven suspicious labels. -/
structure ScanStats where
  total_blocks        : ℕ
  suspicious_blocks   : ℕ
  suspicious_pct      : ℚ
  wipe_density        : ℚ
  regions_count       : ℕ
  avg_entropy_flagged : ℚ
  intent_score        : ℤ
  verdict             : Verdict
  wipe_type_counts    : WipeType → ℕ

/-- The suspicious blocks of the input (`[b for b in blocks if
b.is_suspicious]`). -/
def suspiciousOf (blocks : List BlockResult) : List BlockResult :=
  blocks.filter (fun b => b.is_suspicious)

/-- The `type_counts` table of `compute_score`: counts suspicious blocks per
label, only for the seven suspicious keys initialised in the source. -/
def typeCounts (blocks : List BlockResult) (t : WipeType) : ℕ :=
  if t ∈ suspiciousTypes then
    ((suspiciousOf blocks).filter (fun b => decide (b.wipe_type = t))).length
  else 0

/-- Stage 1 of `compute_score`: the density fast-path verdict floor. -/
def densityVerdict (wipe_density : ℚ) (n_susp : ℕ) : Verdict :=
  if wipe_density > 30/100 then HIGH
  else if wipe_density > 10/100 then MEDIUM
  else if wipe_density > 2/100 then LOW
  else if 2 ≤ n_susp then LOW
  else NEGLIGIBLE

/-- Stage 4 of `compute_score`: the verdict derived from the intent score. -/
def scoreVerdict (intent_score : ℤ) : Verdict :=
  if 70 ≤ intent_score then HIGH
  else if 35 ≤ intent_score then MEDIUM
  else if 10 ≤ intent_score then LOW
  else NEGLIGIBLE

/-- `_empty_stats()` of `scorer.py`. -/
def emptyStats : ScanStats :=
  { total_blocks := 0, suspicious_blocks := 0, suspicious_pct := 0,
    wipe_density := 0, regions_count := 0, avg_entropy_flagged := 0,
    intent_score := 0, verdict := NEGLIGIBLE, wipe_type_counts := fun _ => 0 }

/-- Faithful translation of `compute_score` (`scorer.py`). -/
def compute_score (blocks : List BlockResult) (regions : List Region) :
    ScanStats :=
  if blocks.length = 0 then emptyStats
  else
    let total : ℚ := blocks.length
    let suspicious := suspiciousOf blocks
    let n_susp := suspicious.length
    let susp_pct := ((n_susp : ℚ) / total) * 100
    let wipe_density := (n_susp : ℚ) / total
    let avg_entropy_flagged :=
      if 0 < n_susp then ((suspicious.map BlockResult.entropy).sum) / (n_susp : ℚ) else 0
    let density_verdict := densityVerdict wipe_density n_susp
    let coverage_score := min (susp_pct / 10) 1 * 40
    let region_score := min ((regions.length : ℚ) / 10) 1 * 20
    let rand_regions := regions.filter (fun r => decide (r.wipe_type = RANDOM_WIPE))
    let rand_score := min ((rand_regions.length : ℚ) / 3) 1 * 25
    let multi_regions := regions.filter (fun r => decide (r.wipe_type = MULTI_PASS))
    let multi_score := min ((multi_regions.length : ℚ) / 2) 1 * 15
    let raw0 := coverage_score + region_score + rand_score + multi_score
    let strong_count := (STRONG_WIPE_TYPES.map (typeCounts blocks)).sum
    let partial_count := (PARTIAL_WIPE_TYPES.map (typeCounts blocks)).sum
    let raw1 :=
      if 0 < n_susp ∧ strong_count < partial_count ∧ strong_count < 10
      then raw0 - 10 else raw0
    let raw2 :=
      if regions ≠ [] ∧
         ((regions.map Region.confidence).sum) / (regions.length : ℚ) < 55/100
      then raw1 - 5 else raw1
    let intent_score := min (max (roundInt raw2) 0) 100
    let score_verdict := scoreVerdict intent_score
    let final_verdict :=
      verdictOfIdx (max (verdictIdx score_verdict) (verdictIdx density_verdict))
    { total_blocks := blocks.length
      suspicious_blocks := n_susp
      suspicious_pct := susp_pct
      wipe_density := wipe_density
      regions_count := regions.length
      avg_entropy_flagged := avg_entropy_flagged
      intent_score := intent_score
      verdict := final_verdict
      wipe_type_counts := typeCounts blocks }

-- ─────────────────────────────────────────────────────────────────────────
-- Orchestrator (src/scanner.py)
-- ─────────────────────────────────────────────────────────────────────────

/-- Block size inference of `_fallback_aggregate`: the offset difference of
the first two results, falling back to 512 when non-positive or when fewer
than two results exist (computed in ℤ as in Python). -/
def fallbackBlockSize (block_results : List BlockResult) : ℤ :=
  match block_results with
  | b0 :: b1 :: _ =>
    let d := (b1.offset : ℤ) - (b0.offset : ℤ)
    if d ≤ 0 then 512 else d
  | _ => 512

/-- Dominant wipe type of a run in `_fallback_aggregate`
(`max(type_counts, key=type_counts.__getitem__)`): the most frequent type,
first-encountered order breaking ties, as for a Python insertion-ordered
dict. -/
def dominantType (run : List BlockResult) : WipeType :=
  let keys := (run.map BlockResult.wipe_type).dedup
  let cnt := fun t => (run.filter (fun b => decide (b.wipe_type = t))).length
  match keys with
  | [] => NORMAL
  | k :: ks => ks.foldl (fun best t => if cnt best < cnt t then t else best) k

/-- The `_flush` helper of `_fallback_aggregate`: emits one region for a
non-empty run of consecutive suspicious blocks.  Fallback regions carry an
empty `blocks` list (the Python dataclass default) and an exclusive
`end_offset` convention. -/
def flushRegion (rid : ℕ) (bs : ℤ) (b : BlockResult) (tail : List BlockResult) :
    Region :=
  let run := b :: tail
  let start_offset := b.offset
  let end_offset := ((run.getLast (List.cons_ne_nil b tail)).offset : ℤ) + bs
  { id := rid
    start_offset := start_offset
    end_offset := end_offset.toNat
    size := (end_offset - start_offset).toNat
    wipe_type := dominantType run
    block_count := run.length
    avg_entropy := avgEntropyOf run
    confidence := ((run.map BlockResult.confidence).sum) / (run.length : ℚ)
    blocks := [] }

/-- Loop of `_fallback_aggregate`: collect consecutive suspicious blocks,
flush the run at each non-suspicious block and at the end. -/
def fallbackGo (bs : ℤ) (rid : ℕ) (run_rev : List BlockResult) :
    List BlockResult → List Region
  | [] =>
    match run_rev.reverse with
    | [] => []
    | b :: tail => [flushRegion rid bs b tail]
  | blk :: rest =>
    if blk.is_suspicious then fallbackGo bs rid (blk :: run_rev) rest
    else
      match run_rev.reverse with
      | [] => fallbackGo bs rid [] rest
      | b :: tail => flushRegion rid bs b tail :: fallbackGo bs (rid + 1) [] rest

/-- Faithful translation of `_fallback_aggregate` (`scanner.py`). -/
def fallbackAggregate (block_results : List BlockResult) : List Region :=
  fallbackGo (fallbackBlockSize block_results) 0 [] block_results

/-- Phase 2 of `run_scan` (`scanner.py`): the primary `aggregate`, replaced
by `_fallback_aggregate` whenever it returns no region while suspicious
blocks exist. -/
def pipelineRegions (block_results : List BlockResult) : List Region :=
  let regions := aggregate block_results
  let n_suspicious := (suspiciousOf block_results).length
  if regions.length = 0 ∧ 0 < n_suspicious then fallbackAggregate block_results
  else regions

/-- Phases 2-3 of `run_scan` (`scanner.py`): region building (with the
fallback) followed by `compute_score`. -/
def pipelineStats (block_results : List BlockResult) : ScanStats :=
  compute_score block_results (pipelineRegions block_results)

section
attribute [local semireducible] Rat.add Rat.mul Rat.sub Rat.inv Rat.ofScientific
example :
    (compute_score [⟨0, 0, ZERO_WIPE, 0, 1, 0, 1, true, 1, 0⟩] []).verdict = HIGH := by
  decide
example :
    (compute_score [⟨0, 0, ZERO_WIPE, 0, 1, 0, 1, true, 1, 0⟩] []).intent_score = 40 := by
  decide
end

-- ─────────────────────────────────────────────────────────────────────────
-- Helper lemmas: rounding and confidence bounds
-- ─────────────────────────────────────────────────────────────────────────

/-- Every `round3` value is an integer multiple of `1/1000`. -/
theorem round3_thousandth (q : ℚ) : ∃ k : ℤ, round3 q = (k : ℚ) / 1000 :=
  ⟨⌊q * 1000 + 1/2⌋, rfl⟩

/-- Rounding keeps non-negativity. -/
theorem round3_nonneg {q : ℚ} (h : 0 ≤ q) : 0 ≤ round3 q := by
  unfold round3
  have h1 : (0 : ℤ) ≤ ⌊q * 1000 + 1/2⌋ := by
    rw [Int.le_floor]
    push_cast
    linarith
  positivity

/-- Rounding keeps the bound `≤ 1`. -/
theorem round3_le_one {q : ℚ} (h : q ≤ 1) : round3 q ≤ 1 := by
  unfold round3
  have h1 : ⌊q * 1000 + 1/2⌋ ≤ ⌊(2001 : ℚ)/2⌋ := Int.floor_le_floor (by linarith)
  have h2 : ⌊(2001 : ℚ)/2⌋ = 1000 := by
    rw [Int.floor_eq_iff]
    norm_num
  rw [div_le_one (by norm_num)]
  rw [h2] at h1
  exact_mod_cast h1

/-- Bounds for `_fill_conf` under the strong-fill guard. -/
theorem fillConf_bounds {d e : ℚ} (hd : ZERO_FF_STRONG_MIN ≤ d) :
    0 ≤ fillConf d e ∧ fillConf d e ≤ 1 := by
  unfold fillConf
  have hds : 0 ≤ (d - ZERO_FF_STRONG_MIN) / (1 - ZERO_FF_STRONG_MIN) := by
    unfold ZERO_FF_STRONG_MIN at *
    exact div_nonneg (by linarith) (by norm_num)
  have hes : 0 ≤ 1 - min (e / (1/2)) 1 := by
    have := min_le_right (e / (1/2)) 1
    linarith
  constructor
  · exact round3_nonneg (le_min (by linarith) (by norm_num))
  · exact round3_le_one (min_le_right _ _)

/-- Bounds for `_partial_conf` under the partial-fill guard. -/
theorem partialConf_bounds {d : ℚ} (hd : ZERO_FF_PARTIAL_MIN ≤ d)
    (hd' : d < ZERO_FF_STRONG_MIN) :
    0 ≤ partialConf d ∧ partialConf d ≤ 1 := by
  unfold partialConf ZERO_FF_PARTIAL_MIN ZERO_FF_STRONG_MIN at *
  have h1 : 0 ≤ (d - 60/100) / (90/100 - 60/100) :=
    div_nonneg (by linarith) (by norm_num)
  have h2 : (d - 60/100) / (90/100 - 60/100) < 1 := by
    rw [div_lt_one (by norm_num)]
    linarith
  exact ⟨round3_nonneg (by linarith), round3_le_one (by linarith)⟩

/-- Bounds for `_random_conf` under the high-entropy guard. -/
theorem randomConf_bounds {e u : ℚ} (he : ENTROPY_RANDOM_MIN ≤ e) :
    0 ≤ randomConf e u ∧ randomConf e u ≤ 1 := by
  unfold randomConf
  have h1 : 0 ≤ (e - ENTROPY_RANDOM_MIN) / (8 - ENTROPY_RANDOM_MIN) := by
    unfold ENTROPY_RANDOM_MIN at *
    exact div_nonneg (by linarith) (by norm_num)
  have h2 : 0 ≤ 1 - min (u / UNIFORMITY_WIPE_MAX) 1 := by
    have := min_le_right (u / UNIFORMITY_WIPE_MAX) 1
    linarith
  constructor
  · exact round3_nonneg (le_min (by linarith) (by norm_num))
  · exact round3_le_one (le_trans (min_le_right _ _) (by norm_num))

-- ─────────────────────────────────────────────────────────────────────────
-- Claim C2
-- ─────────────────────────────────────────────────────────────────────────

/-- C2: for every block id, offset, byte sequence and signal values, the
`BlockResult` returned by `classify_block` has `is_suspicious = true` iff
its `wipe_type` is one of `ZERO_WIPE, FF_WIPE, RANDOM_WIPE, MULTI_PASS,
LIKELY_ZERO_WIPE, LIKELY_FF_WIPE, LOW_ENTROPY_SUSPECT`; for `NORMAL` and
`UNALLOCATED` it is `false`. -/
theorem C2_suspicious_iff_wipe_type (block_id offset : ℕ) (data : List ℕ)
    (sig : EntropySignals) :
    ((classify_block block_id offset data sig).is_suspicious = true ↔
      (classify_block block_id offset data sig).wipe_type ∈ suspiciousTypes) ∧
    (((classify_block block_id offset data sig).wipe_type = NORMAL ∨
      (classify_block block_id offset data sig).wipe_type = UNALLOCATED) →
      (classify_block block_id offset data sig).is_suspicious = false) := by
  unfold classify_block
  dsimp only
  repeat' split
  all_goals simp [mkResult, suspiciousTypes]

-- ─────────────────────────────────────────────────────────────────────────
-- Claim C10
-- ─────────────────────────────────────────────────────────────────────────

/-- C10: `classify_block` never returns `UNALLOCATED`: a block satisfying
the `UNALLOCATED` guard (dominant byte `0x00`, `0.70 ≤ dominant_pct <
0.90`) has `zero_ratio = dominant_pct` in the 0.60-0.90 partial-zero band,
so the earlier partial-zero rule already returned. -/
theorem C10_never_unallocated (block_id offset : ℕ) (data : List ℕ)
    (sig : EntropySignals) :
    (classify_block block_id offset data sig).wipe_type ≠ UNALLOCATED := by
  unfold classify_block
  dsimp only
  repeat' split
  all_goals simp [mkResult]
  rename_i hguard
  obtain ⟨hdom, hlo, hhi⟩ := hguard
  rw [hdom] at hlo hhi
  refine absurd ⟨?_, hhi⟩
    ‹¬(ZERO_FF_PARTIAL_MIN ≤ byteFreq data 0 ∧ byteFreq data 0 < ZERO_FF_STRONG_MIN)›
  unfold ZERO_FF_PARTIAL_MIN
  linarith

-- ─────────────────────────────────────────────────────────────────────────
-- Claim C3 (corrected)
-- ─────────────────────────────────────────────────────────────────────────

/-- Case analysis of the `(wipe_type, confidence)` pair produced by
`classify_block`, with the branch guards needed for the bound proofs. -/
theorem classify_block_conf_cases (block_id offset : ℕ) (data : List ℕ)
    (sig : EntropySignals) :
    ((classify_block block_id offset data sig).wipe_type = ZERO_WIPE ∧
     (classify_block block_id offset data sig).confidence
       = fillConf (byteFreq data 0) sig.entropy ∧
     ZERO_FF_STRONG_MIN ≤ byteFreq data 0) ∨
    ((classify_block block_id offset data sig).wipe_type = FF_WIPE ∧
     (classify_block block_id offset data sig).confidence
       = fillConf (byteFreq data 255) sig.entropy * (96/100) ∧
     ZERO_FF_STRONG_MIN ≤ byteFreq data 255) ∨
    ((classify_block block_id offset data sig).wipe_type = LIKELY_ZERO_WIPE ∧
     (classify_block block_id offset data sig).confidence
       = partialConf (byteFreq data 0) ∧
     ZERO_FF_PARTIAL_MIN ≤ byteFreq data 0 ∧ byteFreq data 0 < ZERO_FF_STRONG_MIN) ∨
    ((classify_block block_id offset data sig).wipe_type = LIKELY_FF_WIPE ∧
     (classify_block block_id offset data sig).confidence
       = partialConf (byteFreq data 255) ∧
     ZERO_FF_PARTIAL_MIN ≤ byteFreq data 255 ∧ byteFreq data 255 < ZERO_FF_STRONG_MIN) ∨
    ((classify_block block_id offset data sig).wipe_type = RANDOM_WIPE ∧
     (classify_block block_id offset data sig).confidence
       = randomConf sig.entropy sig.uniformity ∧
     ENTROPY_RANDOM_MIN ≤ sig.entropy) ∨
    ((classify_block block_id offset data sig).wipe_type ≠ FF_WIPE ∧
     (classify_block block_id offset data sig).confidence ∈
       ([1, 82/100, 72/100, 87/100, 52/100, 48/100, 90/100] : List ℚ)) := by
  unfold classify_block
  dsimp only
  repeat' split
  all_goals simp_all [mkResult]

/-- C3 as amended: every confidence produced by `classify_block` lies in
`[0, 1]`; in every branch except `FF_WIPE` it is an integer multiple of
`1/1000` (a 3-decimal value), while in the `FF_WIPE` branch it is a
3-decimal value multiplied by `0.96` (hence in general not itself rounded
to 3 decimals). -/
theorem C3_confidence_amended (block_id offset : ℕ) (data : List ℕ)
    (sig : EntropySignals) :
    (0 ≤ (classify_block block_id offset data sig).confidence ∧
     (classify_block block_id offset data sig).confidence ≤ 1) ∧
    ((classify_block block_id offset data sig).wipe_type ≠ FF_WIPE →
      ∃ k : ℤ, (classify_block block_id offset data sig).confidence = (k : ℚ) / 1000) ∧
    ((classify_block block_id offset data sig).wipe_type = FF_WIPE →
      ∃ k : ℤ, (classify_block block_id offset data sig).confidence
        = (k : ℚ) / 1000 * (96/100)) := by
  rcases classify_block_conf_cases block_id offset data sig with
    ⟨hw, hc, hg⟩ | ⟨hw, hc, hg⟩ | ⟨hw, hc, hg, hg'⟩ | ⟨hw, hc, hg, hg'⟩ | ⟨hw, hc, hg⟩ | ⟨hw, hc⟩
  · obtain ⟨h0, h1⟩ := fillConf_bounds (e := sig.entropy) hg
    rw [hc, hw]
    exact ⟨⟨h0, h1⟩, fun _ => round3_thousandth _, by simp⟩
  · obtain ⟨h0, h1⟩ := fillConf_bounds (e := sig.entropy) hg
    obtain ⟨k, hk⟩ := round3_thousandth
      (min (55/100 + ((byteFreq data 255) - ZERO_FF_STRONG_MIN) / (1 - ZERO_FF_STRONG_MIN) * (28/100)
        + (1 - min (sig.entropy / (1/2)) 1) * (17/100)) 1)
    rw [hc, hw]
    refine ⟨⟨by positivity, by nlinarith⟩, by simp, fun _ => ⟨k, ?_⟩⟩
    rw [fillConf]
    rw [hk]
  · obtain ⟨h0, h1⟩ := partialConf_bounds hg hg'
    rw [hc, hw]
    exact ⟨⟨h0, h1⟩, fun _ => round3_thousandth _, by simp⟩
  · obtain ⟨h0, h1⟩ := partialConf_bounds hg hg'
    rw [hc, hw]
    exact ⟨⟨h0, h1⟩, fun _ => round3_thousandth _, by simp⟩
  · obtain ⟨h0, h1⟩ := randomConf_bounds (u := sig.uniformity) hg
    rw [hc, hw]
    exact ⟨⟨h0, h1⟩, fun _ => round3_thousandth _, by simp⟩
  · simp only [List.mem_cons, List.not_mem_nil, or_false] at hc
    rcases hc with hc | hc | hc | hc | hc | hc | hc <;> rw [hc] <;>
      refine ⟨⟨by norm_num, by norm_num⟩, fun _ => ?_, fun hff => absurd hff hw⟩
    · exact ⟨1000, by norm_num⟩
    · exact ⟨820, by norm_num⟩
    · exact ⟨720, by norm_num⟩
    · exact ⟨870, by norm_num⟩
    · exact ⟨520, by norm_num⟩
    · exact ⟨480, by norm_num⟩
    · exact ⟨900, by norm_num⟩

/-- Concrete 50-byte block: 49 bytes `0xFF` and one `0x00`
(`ff_ratio = 0.98`), with float entropy `0.1`. -/
def ffData : List ℕ := List.replicate 49 255 ++ [0]

/-- The signal values used with `ffData` (entropy 0.1 ≤ 0.20 keeps the
strong-fill guard satisfied). -/
def ffSig : EntropySignals := ⟨1/10, 0, 0, 0⟩

section
attribute [local semireducible] Rat.add Rat.mul Rat.sub Rat.inv Rat.ofScientific

/-- C3 counterexample: on `ffData` the classifier takes the `FF_WIPE`
branch and returns confidence `round3(0.91) * 0.96 = 0.8736`, which is not
an integer multiple of `1/1000` — the confidence is not a value rounded to
3 decimal places, refuting the claim as stated. -/
theorem C3_counterexample :
    (classify_block 0 0 ffData ffSig).wipe_type = FF_WIPE ∧
    (classify_block 0 0 ffData ffSig).confidence = 8736/10000 ∧
    ¬ ∃ k : ℤ, (8736/10000 : ℚ) = (k : ℚ) / 1000 := by
  refine ⟨by decide, by decide, ?_⟩
  rintro ⟨k, hk⟩
  have h1 : (k : ℚ) * 10 = 8736 := by
    field_simp at hk
    linarith
  have h2 : (k * 10 : ℤ) = 8736 := by exact_mod_cast h1
  omega

end

/-- C3 witness: the amended statement at the concrete input `ffData`. -/
theorem C3_witness :
    (0 ≤ (classify_block 0 0 ffData ffSig).confidence ∧
     (classify_block 0 0 ffData ffSig).confidence ≤ 1) ∧
    ((classify_block 0 0 ffData ffSig).wipe_type ≠ FF_WIPE →
      ∃ k : ℤ, (classify_block 0 0 ffData ffSig).confidence = (k : ℚ) / 1000) ∧
    ((classify_block 0 0 ffData ffSig).wipe_type = FF_WIPE →
      ∃ k : ℤ, (classify_block 0 0 ffData ffSig).confidence
        = (k : ℚ) / 1000 * (96/100)) :=
  C3_confidence_amended 0 0 ffData ffSig

/-- C2 witness: the statement at a concrete all-zero block. -/
theorem C2_witness :
    (((classify_block 0 0 (List.replicate 20 0) ffSig).is_suspicious = true ↔
      (classify_block 0 0 (List.replicate 20 0) ffSig).wipe_type ∈ suspiciousTypes) ∧
     (((classify_block 0 0 (List.replicate 20 0) ffSig).wipe_type = NORMAL ∨
       (classify_block 0 0 (List.replicate 20 0) ffSig).wipe_type = UNALLOCATED) →
       (classify_block 0 0 (List.replicate 20 0) ffSig).is_suspicious = false)) :=
  C2_suspicious_iff_wipe_type 0 0 (List.replicate 20 0) ffSig

-- ─────────────────────────────────────────────────────────────────────────
-- Claim C8
-- ─────────────────────────────────────────────────────────────────────────

/-- Maximum of two verdicts in the ordering
`NEGLIGIBLE < LOW < MEDIUM < HIGH`. -/
def verdictMax (a b : Verdict) : Verdict :=
  if verdictIdx a ≤ verdictIdx b then b else a

/-- Table lookup `verdict_order[max(idx, idx)]` agrees with the ordering
maximum. -/
theorem verdictOfIdx_max (a b : Verdict) :
    verdictOfIdx (max (verdictIdx a) (verdictIdx b)) = verdictMax a b := by
  cases a <;> cases b <;> rfl

/-- The ordering maximum dominates both arguments. -/
theorem verdictIdx_le_max_left (a b : Verdict) :
    verdictIdx a ≤ verdictIdx (verdictMax a b) := by
  cases a <;> cases b <;> simp [verdictMax, verdictIdx]

/-- The verdict maximum is symmetric (indices are injective). -/
theorem verdictMax_comm (a b : Verdict) : verdictMax a b = verdictMax b a := by
  cases a <;> cases b <;> rfl

/-- C8: for a non-empty block list, the verdict computed by `compute_score`
is the maximum (in the ordering NEGLIGIBLE < LOW < MEDIUM < HIGH) of the
density fast-path verdict and the score verdict; hence the density floor
can only raise the verdict, and `wipe_density > 0.30` forces `HIGH`.  The
score verdict thresholds are exactly `≥70 HIGH / ≥35 MEDIUM / ≥10 LOW /
else NEGLIGIBLE`. -/
theorem C8_verdict_is_max (blocks : List BlockResult) (regions : List Region)
    (h : blocks ≠ []) :
    (compute_score blocks regions).verdict =
      verdictMax
        (densityVerdict (compute_score blocks regions).wipe_density
          (compute_score blocks regions).suspicious_blocks)
        (scoreVerdict (compute_score blocks regions).intent_score) ∧
    verdictIdx (scoreVerdict (compute_score blocks regions).intent_score) ≤
      verdictIdx (compute_score blocks regions).verdict ∧
    ((compute_score blocks regions).wipe_density > 30/100 →
      (compute_score blocks regions).verdict = HIGH) ∧
    (∀ s : ℤ, (scoreVerdict s = HIGH ↔ 70 ≤ s) ∧
      (scoreVerdict s = MEDIUM ↔ 35 ≤ s ∧ s < 70) ∧
      (scoreVerdict s = LOW ↔ 10 ≤ s ∧ s < 35) ∧
      (scoreVerdict s = NEGLIGIBLE ↔ s < 10)) := by
  have hlen : ¬ blocks.length = 0 := by simpa using h
  unfold compute_score
  rw [if_neg hlen]
  dsimp only
  refine ⟨?_, ?_, ?_, ?_⟩
  · rw [verdictOfIdx_max, verdictMax_comm]
  · rw [verdictOfIdx_max]
    exact verdictIdx_le_max_left _ _
  · intro hdens
    rw [verdictOfIdx_max]
    have hD : densityVerdict ((suspiciousOf blocks).length / (blocks.length : ℚ))
        (suspiciousOf blocks).length = HIGH := by
      unfold densityVerdict
      rw [if_pos hdens]
    rw [hD]
    generalize scoreVerdict _ = sv
    cases sv <;> rfl
  · intro s
    unfold scoreVerdict
    refine ⟨?_, ?_, ?_, ?_⟩ <;> split_ifs <;> simp <;> omega

/-- C8 witness: the statement at a concrete one-block input. -/
theorem C8_witness :
    (compute_score [⟨0, 0, ZERO_WIPE, 0, 1, 0, 1, true, 1, 0⟩] []).verdict =
      verdictMax
        (densityVerdict
          (compute_score [⟨0, 0, ZERO_WIPE, 0, 1, 0, 1, true, 1, 0⟩] []).wipe_density
          (compute_score [⟨0, 0, ZERO_WIPE, 0, 1, 0, 1, true, 1, 0⟩] []).suspicious_blocks)
        (scoreVerdict
          (compute_score [⟨0, 0, ZERO_WIPE, 0, 1, 0, 1, true, 1, 0⟩] []).intent_score) ∧
    verdictIdx (scoreVerdict
        (compute_score [⟨0, 0, ZERO_WIPE, 0, 1, 0, 1, true, 1, 0⟩] []).intent_score) ≤
      verdictIdx (compute_score [⟨0, 0, ZERO_WIPE, 0, 1, 0, 1, true, 1, 0⟩] []).verdict ∧
    ((compute_score [⟨0, 0, ZERO_WIPE, 0, 1, 0, 1, true, 1, 0⟩] []).wipe_density > 30/100 →
      (compute_score [⟨0, 0, ZERO_WIPE, 0, 1, 0, 1, true, 1, 0⟩] []).verdict = HIGH) ∧
    (∀ s : ℤ, (scoreVerdict s = HIGH ↔ 70 ≤ s) ∧
      (scoreVerdict s = MEDIUM ↔ 35 ≤ s ∧ s < 70) ∧
      (scoreVerdict s = LOW ↔ 10 ≤ s ∧ s < 35) ∧
      (scoreVerdict s = NEGLIGIBLE ↔ s < 10)) :=
  C8_verdict_is_max [⟨0, 0, ZERO_WIPE, 0, 1, 0, 1, true, 1, 0⟩] [] (by simp)

-- ─────────────────────────────────────────────────────────────────────────
-- Concrete inputs for boundary claims
-- ─────────────────────────────────────────────────────────────────────────

/-- A ZERO_WIPE classifier output for block `i` (as produced for an
all-zero 512-byte block). -/
def zb (i : ℕ) : BlockResult := ⟨i, 512 * i, ZERO_WIPE, 0, 1, 0, 1, true, 1, 0⟩

/-- A NORMAL classifier output for block `i`. -/
def nb (i : ℕ) : BlockResult :=
  ⟨i, 512 * i, NORMAL, 4, 9/10, 55, 1/10, false, 1/10, 0⟩

/-- 17 blocks: a run of exactly 15 consecutive ZERO_WIPE blocks (ids 1-15)
surrounded by NORMAL blocks. -/
def run15 : List BlockResult :=
  (List.range 17).map (fun i => if 1 ≤ i ∧ i ≤ 15 then zb i else nb i)

/-- 18 blocks: a run of exactly 16 consecutive ZERO_WIPE blocks (ids 1-16)
surrounded by NORMAL blocks. -/
def run16 : List BlockResult :=
  (List.range 18).map (fun i => if 1 ≤ i ∧ i ≤ 16 then zb i else nb i)

section
attribute [local semireducible] Rat.add Rat.mul Rat.sub Rat.inv Rat.ofScientific
example : aggregate run15 = [] := by decide
example : (aggregate run16).length = 1 := by decide
example : ((aggregate run16).headI).block_count = 16 := by decide
end

-- ─────────────────────────────────────────────────────────────────────────
-- Region invariants (claims C1, C4, C5)
-- ─────────────────────────────────────────────────────────────────────────

/-- First member block index of a region (`blocks[0]`, default 0). -/
def regFirst (r : Region) : ℕ := r.blocks.head?.getD 0

/-- Last member block index of a region (`blocks[-1]`, default 0). -/
def regLast (r : Region) : ℕ := r.blocks.getLast?.getD 0

/-- Structural well-formedness of one region: non-empty strictly increasing
member list, and the offset formulas of the spec's data-model invariant. -/
def RegionOK (r : Region) : Prop :=
  r.blocks ≠ [] ∧ r.blocks.Chain' (· < ·) ∧
  r.start_offset = regFirst r * BLOCK_SIZE ∧
  r.end_offset = regLast r * BLOCK_SIZE + (BLOCK_SIZE - 1)

/-- Separation of two regions: the first ends strictly before the second
starts (at block-index granularity). -/
def RegSep (r1 r2 : Region) : Prop := regLast r1 < regFirst r2

/-- Well-formedness of a region list: all regions OK and pairwise
separated in order. -/
def RegionsOK (rs : List Region) : Prop :=
  (∀ r ∈ rs, RegionOK r) ∧ rs.Pairwise RegSep

/-- Separated OK regions have non-overlapping sorted offset ranges. -/
theorem RegSep.offset_lt {r1 r2 : Region} (h1 : RegionOK r1) (h2 : RegionOK r2)
    (hs : RegSep r1 r2) : r1.end_offset < r2.start_offset := by
  obtain ⟨-, -, -, he⟩ := h1
  obtain ⟨-, -, hs2, -⟩ := h2
  rw [he, hs2]
  unfold RegSep at hs
  unfold BLOCK_SIZE
  omega

/-- The member list of `mkRunRegion` is the run's block ids. -/
theorem mkRunRegion_blocks (rid : ℕ) (b : BlockResult) (tail : List BlockResult) :
    (mkRunRegion rid b tail).blocks = (b :: tail).map BlockResult.block_id := rfl

/-- `mkRunRegion` yields a well-formed region whenever the run's ids are
strictly increasing. -/
theorem mkRunRegion_ok (rid : ℕ) (b : BlockResult) (tail : List BlockResult)
    (h : ((b :: tail).map BlockResult.block_id).Chain' (· < ·)) :
    RegionOK (mkRunRegion rid b tail) := by
  refine ⟨by simp [mkRunRegion_blocks], by simpa [mkRunRegion_blocks] using h, ?_, ?_⟩
  · show (mkRunRegion rid b tail).start_offset = _
    unfold regFirst
    rw [mkRunRegion_blocks]
    simp [mkRunRegion]
  · show (mkRunRegion rid b tail).end_offset = _
    unfold regLast
    rw [mkRunRegion_blocks]
    have : ((b :: tail).map BlockResult.block_id).getLast? =
        some (((b :: tail).getLast (List.cons_ne_nil b tail)).block_id) := by
      rw [List.getLast?_map, List.getLast?_eq_getLast _ (List.cons_ne_nil b tail)]
      rfl
    rw [this]
    simp [mkRunRegion]
    unfold BLOCK_SIZE
    omega

/-- Every member block id of a merged region is the id of some input
block. -/
theorem mergeConsecutiveF_blocks_subset (fuel rid : ℕ) (l : List BlockResult) :
    ∀ r ∈ mergeConsecutiveF rid fuel l, ∀ bid ∈ r.blocks,
      ∃ b ∈ l, bid = b.block_id := by
  induction fuel generalizing rid l with
  | zero => simp [mergeConsecutiveF]
  | succ fuel ih =>
    match l with
    | [] => simp [mergeConsecutiveF]
    | b :: rest =>
      rw [mergeConsecutiveF]
      split
      · intro r hr bid hbid
        rcases List.mem_cons.mp hr with hr | hr
        · subst hr
          rw [mkRunRegion_blocks] at hbid
          obtain ⟨x, hx, hxe⟩ := List.mem_map.mp hbid
          rcases List.mem_cons.mp hx with hx | hx
          · exact ⟨b, List.mem_cons_self _ _, by rw [← hxe, hx]⟩
          · exact ⟨x, List.mem_cons_of_mem _
              ((List.takeWhile_sublist _).mem hx), hxe.symm⟩
        · obtain ⟨x, hx, hxe⟩ := ih _ _ r hr bid hbid
          exact ⟨x, List.mem_cons_of_mem _ ((List.dropWhile_sublist _).mem hx), hxe⟩
      · intro r hr bid hbid
        obtain ⟨x, hx, hxe⟩ := ih _ _ r hr bid hbid
        exact ⟨x, List.mem_cons_of_mem _ hx, hxe⟩

/-- Stage 1 preserves the region invariants: on a strictly
id-ascending classification stream, `_merge_consecutive` produces
well-formed pairwise separated regions. -/
theorem mergeConsecutiveF_regionsOK (fuel rid : ℕ) (l : List BlockResult)
    (hl : l.Pairwise (fun a b => a.block_id < b.block_id)) :
    RegionsOK (mergeConsecutiveF rid fuel l) := by
  induction fuel generalizing rid l with
  | zero => exact ⟨by simp [mergeConsecutiveF], by simp [mergeConsecutiveF]⟩
  | succ fuel ih =>
    match l with
    | [] => exact ⟨by simp [mergeConsecutiveF], by simp [mergeConsecutiveF]⟩
    | b :: rest =>
      rw [mergeConsecutiveF]
      split
      · have hsplit : b :: rest =
            (b :: rest.takeWhile (sameRun b.wipe_type)) ++
              rest.dropWhile (sameRun b.wipe_type) := by
          rw [List.cons_append, List.takeWhile_append_dropWhile]
        have hl' : ((b :: rest.takeWhile (sameRun b.wipe_type)) ++
            rest.dropWhile (sameRun b.wipe_type)).Pairwise
              (fun a b => a.block_id < b.block_id) := hsplit ▸ hl
        rw [List.pairwise_append] at hl'
        obtain ⟨hrun, hdrop, hcross⟩ := hl'
        obtain ⟨ihOK, ihSep⟩ := ih (rid + 1) (rest.dropWhile (sameRun b.wipe_type)) hdrop
        refine ⟨?_, ?_⟩
        · intro r hr
          rcases List.mem_cons.mp hr with hr | hr
          · subst hr
            exact mkRunRegion_ok _ _ _ ((hrun.map BlockResult.block_id (fun a b h => h)).chain')
          · exact ihOK r hr
        · rw [List.pairwise_cons]
          refine ⟨?_, ihSep⟩
          intro r hr
          unfold RegSep
          obtain ⟨blast, hblast⟩ : ∃ x, ((b :: rest.takeWhile (sameRun b.wipe_type)).map
              BlockResult.block_id).getLast? = some x := by
            simp [List.getLast?_map, List.getLast?_eq_getLast _ (List.cons_ne_nil _ _)]
          have hlast_mem : blast ∈ (b :: rest.takeWhile (sameRun b.wipe_type)).map
              BlockResult.block_id := List.mem_of_getLast?_eq_some hblast
          obtain ⟨xb, hxb, hxbe⟩ := List.mem_map.mp hlast_mem
          have hfr : ∃ y, (regFirst r) ∈ r.blocks ∨ r.blocks = [] := ⟨0, by
            cases hb : r.blocks with
            | nil => exact Or.inr rfl
            | cons u v => exact Or.inl (by simp [regFirst, hb])⟩
          show regLast (mkRunRegion rid b (rest.takeWhile (sameRun b.wipe_type))) < regFirst r
          unfold regLast
          rw [mkRunRegion_blocks, hblast]
          simp only [Option.getD_some]
          obtain ⟨-, hfirst⟩ := hfr
          rcases hfirst with hfirst | hempty
          · obtain ⟨xr, hxr, hxre⟩ :=
              mergeConsecutiveF_blocks_subset _ _ _ r hr (regFirst r) hfirst
            rw [hxre, ← hxbe]
            exact hcross xb hxb xr hxr
          · have hOK := ihOK r hr
            exact absurd hempty hOK.1
      · exact ih rid rest (List.Pairwise.of_cons hl)

/-- Stage 1 invariant at the wrapper. -/
theorem mergeConsecutive_regionsOK (rid : ℕ) (l : List BlockResult)
    (hl : l.Pairwise (fun a b => a.block_id < b.block_id)) :
    RegionsOK (mergeConsecutive rid l) :=
  mergeConsecutiveF_regionsOK _ _ _ hl

/-- In an OK region the first member is at most the last member. -/
theorem regFirst_le_regLast {r : Region} (h : RegionOK r) :
    regFirst r ≤ regLast r := by
  obtain ⟨hne, hch, -, -⟩ := h
  match hb : r.blocks with
  | [] => exact absurd hb hne
  | [x] => simp [regFirst, regLast, hb]
  | x :: y :: rest =>
    rw [hb] at hch
    have hp := List.chain'_iff_pairwise.mp hch
    have hx : x < (y :: rest).getLast (List.cons_ne_nil _ _) := by
      rw [List.pairwise_cons] at hp
      exact hp.1 _ (List.getLast_mem _)
    have : (x :: y :: rest).getLast (List.cons_ne_nil _ _) =
        (y :: rest).getLast (List.cons_ne_nil _ _) := by
      rw [List.getLast_cons (List.cons_ne_nil _ _)]
    simp only [regFirst, regLast, hb, List.head?_cons, Option.getD_some,
      List.getLast?_eq_getLast _ (List.cons_ne_nil _ _)]
    rw [this]
    exact le_of_lt hx

/-- The fused region of `_absorb_noise` is well-formed and keeps the left
region's start, the right region's end, and the left region's type. -/
theorem fuseRegions_ok {prev curr : Region} (all_blocks : List BlockResult)
    (hp : RegionOK prev) (hc : RegionOK curr) (hs : RegSep prev curr) :
    RegionOK (fuseRegions prev curr all_blocks) ∧
    regFirst (fuseRegions prev curr all_blocks) = regFirst prev ∧
    regLast (fuseRegions prev curr all_blocks) = regLast curr ∧
    (fuseRegions prev curr all_blocks).wipe_type = prev.wipe_type := by
  obtain ⟨hpne, hpch, hps, hpe⟩ := hp
  obtain ⟨hcne, hcch, hcs, hce⟩ := hc
  unfold RegSep at hs
  have hpl : prev.blocks.getLast?.getD 0 = regLast prev := rfl
  have hcf : curr.blocks.head?.getD 0 = regFirst curr := rfl
  have hblocks : (fuseRegions prev curr all_blocks).blocks =
      prev.blocks ++ List.range' (regLast prev + 1)
        (regFirst curr - (regLast prev + 1)) ++ curr.blocks := rfl
  have hfirst : regFirst (fuseRegions prev curr all_blocks) = regFirst prev := by
    unfold regFirst
    rw [hblocks]
    match hb : prev.blocks with
    | [] => exact absurd hb hpne
    | x :: xs => simp
  have hlast : regLast (fuseRegions prev curr all_blocks) = regLast curr := by
    unfold regLast
    rw [hblocks]
    match hb : curr.blocks with
    | [] => exact absurd hb hcne
    | x :: xs =>
      rw [List.getLast?_append]
      rw [List.getLast?_eq_getLast _ (List.cons_ne_nil _ _)]
      rfl
  refine ⟨⟨?_, ?_, ?_, ?_⟩, hfirst, hlast, by simp [fuseRegions]⟩
  · rw [hblocks]
    simp [hpne]
  · rw [hblocks]
    rw [List.chain'_append, List.chain'_append]
    refine ⟨⟨hpch, (List.pairwise_lt_range' _ _).chain', ?_⟩, hcch, ?_⟩
    · intro x hx y hy
      rw [List.getLast?_eq_getLast _ hpne] at hx
      have hxv : x = regLast prev := by
        simp only [Option.mem_def, Option.some.injEq] at hx
        rw [← hx]
        simp [regLast, List.getLast?_eq_getLast _ hpne]
      obtain ⟨i, hi, hyv⟩ := List.mem_range'.mp (List.mem_of_mem_head? hy)
      omega
    · intro x hx y hy
      have hyv : y = regFirst curr := by
        match hb : curr.blocks with
        | [] => exact absurd hb hcne
        | c :: cs =>
          rw [hb] at hy
          simp only [List.head?_cons, Option.mem_def, Option.some.injEq] at hy
          rw [← hy]
          simp [regFirst, hb]
      rw [List.getLast?_append] at hx
      rcases hgap : List.range' (regLast prev + 1) (regFirst curr - (regLast prev + 1)) with
        _ | ⟨g, gs⟩
      · rw [hgap] at hx
        simp only [List.getLast?_nil, Option.none_or] at hx
        rw [List.getLast?_eq_getLast _ hpne] at hx
        have hxv : x = regLast prev := by
          simp only [Option.mem_def, Option.some.injEq] at hx
          rw [← hx]
          simp [regLast, List.getLast?_eq_getLast _ hpne]
        omega
      · rw [hgap] at hx
        have hxm : x ∈ g :: gs := by
          have := List.getLast?_eq_getLast (g :: gs) (List.cons_ne_nil _ _)
          rw [this] at hx
          simp only [Option.or_some, Option.mem_def, Option.some.injEq] at hx
          rw [← hx]
          exact List.getLast_mem _
        rw [← hgap] at hxm
        obtain ⟨i, hi, hxv⟩ := List.mem_range'.mp hxm
        omega
  · show (fuseRegions prev curr all_blocks).start_offset = _
    rw [hfirst]
    simpa [fuseRegions] using hps
  · show (fuseRegions prev curr all_blocks).end_offset = _
    rw [hlast]
    simpa [fuseRegions] using hce

/-- Stage 2 loop invariant: from a well-formed separated state, the noise
absorption loop produces well-formed separated regions whose first members
do not precede the current head's first member. -/
theorem absorbGo_regionsOK (all_blocks : List BlockResult) (p : Region)
    (l : List Region) (hpOK : RegionOK p) (hlOK : ∀ r ∈ l, RegionOK r)
    (hsep : (p :: l).Pairwise RegSep) :
    RegionsOK (absorbGo all_blocks p l) ∧
    ∀ s ∈ absorbGo all_blocks p l, regFirst p ≤ regFirst s := by
  induction l generalizing p with
  | nil =>
    refine ⟨⟨?_, ?_⟩, ?_⟩ <;> simp [absorbGo]
    exact hpOK
  | cons curr rest ih =>
    rw [absorbGo]
    have hsepPC : RegSep p curr := (List.pairwise_cons.mp hsep).1 curr (by simp)
    split
    · obtain ⟨hfOK, hff, hfl, hft⟩ :=
        fuseRegions_ok all_blocks hpOK (hlOK curr (by simp)) hsepPC
      have hsep' : (fuseRegions p curr all_blocks :: rest).Pairwise RegSep := by
        rw [List.pairwise_cons]
        refine ⟨?_, ?_⟩
        · intro r hr
          unfold RegSep
          rw [hfl]
          have := (List.pairwise_cons.mp (List.Pairwise.of_cons hsep)).1 r hr
          exact this
        · exact List.Pairwise.of_cons (List.Pairwise.of_cons hsep)
      obtain ⟨hrec, hbound⟩ := ih (fuseRegions p curr all_blocks) hfOK
        (fun r hr => hlOK r (List.mem_cons_of_mem _ hr)) hsep'
      refine ⟨hrec, ?_⟩
      intro s hsmem
      rw [← hff]
      exact hbound s hsmem
    · have hsep' : (curr :: rest).Pairwise RegSep := List.Pairwise.of_cons hsep
      obtain ⟨⟨hrecOK, hrecSep⟩, hbound⟩ := ih curr (hlOK curr (by simp))
        (fun r hr => hlOK r (List.mem_cons_of_mem _ hr)) hsep'
      have hple : regFirst p ≤ regLast p := regFirst_le_regLast hpOK
      refine ⟨⟨?_, ?_⟩, ?_⟩
      · intro r hr
        rcases List.mem_cons.mp hr with hr | hr
        · subst hr; exact hpOK
        · exact hrecOK r hr
      · rw [List.pairwise_cons]
        refine ⟨?_, hrecSep⟩
        intro r hr
        unfold RegSep
        have h1 : regLast p < regFirst curr := hsepPC
        have h2 : regFirst curr ≤ regFirst r := hbound r hr
        omega
      · intro s hsmem
        rcases List.mem_cons.mp hsmem with hsm | hsm
        · subst hsm; exact le_rfl
        · have h1 : regLast p < regFirst curr := hsepPC
          have h2 : regFirst curr ≤ regFirst s := hbound s hsm
          omega

/-- Stage 2 preserves the region invariants. -/
theorem absorbNoise_regionsOK (regions : List Region)
    (all_blocks : List BlockResult) (h : RegionsOK regions) :
    RegionsOK (absorbNoise regions all_blocks) := by
  match regions with
  | [] => exact ⟨by simp [absorbNoise], by simp [absorbNoise]⟩
  | r0 :: rest =>
    exact (absorbGo_regionsOK all_blocks r0 rest (h.1 r0 (by simp))
      (fun r hr => h.1 r (List.mem_cons_of_mem _ hr)) h.2).1

/-- Stage 3 preserves the region invariants (it keeps a sublist). -/
theorem filterBySize_regionsOK (rs : List Region) (h : RegionsOK rs) :
    RegionsOK (filterBySize rs) :=
  ⟨fun r hr => h.1 r ((List.filter_sublist _).mem hr),
   h.2.sublist (List.filter_sublist _)⟩

/-- Everything surviving stage 3 has at least `MIN_REGION_BLOCKS` member
blocks. -/
theorem filterBySize_min_blocks (rs : List Region) :
    ∀ r ∈ filterBySize rs, MIN_REGION_BLOCKS ≤ r.block_count := by
  intro r hr
  have := List.of_mem_filter hr
  simpa using this

/-- `bandExtend` splits its input into the collected group and the rest. -/
theorem bandExtend_eq_append (prev : Region) (l : List Region) :
    (bandExtend prev l).1 ++ (bandExtend prev l).2 = l := by
  induction l generalizing prev with
  | nil => simp [bandExtend]
  | cons c cs ih =>
    rw [bandExtend]
    split
    · simpa using ih c
    · simp

/-- The collected band group extension is a sublist of the input. -/
theorem bandExtend_fst_sublist (prev : Region) (l : List Region) :
    (bandExtend prev l).1.Sublist l := by
  induction l generalizing prev with
  | nil => simp [bandExtend]
  | cons c cs ih =>
    rw [bandExtend]
    split
    · exact (ih c).cons₂ c
    · simp

/-- The remainder after band extension is a sublist of the input. -/
theorem bandExtend_snd_sublist (prev : Region) (l : List Region) :
    (bandExtend prev l).2.Sublist l := by
  induction l generalizing prev with
  | nil => simp [bandExtend]
  | cons c cs ih =>
    rw [bandExtend]
    split
    · exact (ih c).cons c
    · simp

/-- Head of the concatenated member lists of a band group. -/
theorem flatten_blocks_head (first : Region) (ext : List Region)
    (h1 : first.blocks ≠ []) :
    (((first :: ext).map Region.blocks).flatten).head? = first.blocks.head? := by
  match hb : first.blocks with
  | [] => exact absurd hb h1
  | x :: xs => simp [hb]

/-- Last element of the concatenated member lists of a band group. -/
theorem flatten_blocks_getLast (gs : List Region) (hne : gs ≠ [])
    (h : ∀ r ∈ gs, r.blocks ≠ []) :
    ((gs.map Region.blocks).flatten).getLast? = (gs.getLast hne).blocks.getLast? := by
  induction gs with
  | nil => exact absurd rfl hne
  | cons r rest ih =>
    match rest with
    | [] => simp
    | r2 :: rest2 =>
      have hrec := ih (List.cons_ne_nil _ _) (fun x hx => h x (List.mem_cons_of_mem _ hx))
      rw [List.map_cons, List.flatten_cons, List.getLast?_append, hrec]
      have h2ne : (r2 :: rest2).getLast (List.cons_ne_nil _ _) ∈ r2 :: rest2 :=
        List.getLast_mem _
      have hbne : ((r2 :: rest2).getLast (List.cons_ne_nil _ _)).blocks ≠ [] :=
        h _ (List.mem_cons_of_mem _ h2ne)
      rw [List.getLast_cons (List.cons_ne_nil _ _)]
      match hbb : ((r2 :: rest2).getLast (List.cons_ne_nil _ _)).blocks with
      | [] => exact absurd hbb hbne
      | y :: ys => simp [List.getLast?_eq_getLast _ (List.cons_ne_nil _ _)]

/-- Chain of the concatenated member lists of a pairwise-separated group of
OK regions. -/
theorem chain'_flatten_of_sep (gs : List Region) (hOK : ∀ r ∈ gs, RegionOK r)
    (hsep : gs.Pairwise RegSep) :
    ((gs.map Region.blocks).flatten).Chain' (· < ·) := by
  induction gs with
  | nil => simp
  | cons r rest ih =>
    rw [List.map_cons, List.flatten_cons, List.chain'_append]
    refine ⟨(hOK r (by simp)).2.1,
      ih (fun x hx => hOK x (List.mem_cons_of_mem _ hx)) (List.Pairwise.of_cons hsep), ?_⟩
    intro x hx y hy
    match rest with
    | [] => simp at hy
    | r2 :: rest2 =>
      have h2OK := hOK r2 (by simp)
      rw [flatten_blocks_head r2 rest2 h2OK.1] at hy
      have hxv : x = regLast r := by
        have hrne := (hOK r (by simp)).1
        rw [List.getLast?_eq_getLast _ hrne] at hx
        simp only [Option.mem_def, Option.some.injEq] at hx
        rw [← hx]
        simp [regLast, List.getLast?_eq_getLast _ hrne]
      have hyv : y = regFirst r2 := by
        match hb : r2.blocks with
        | [] => exact absurd hb h2OK.1
        | c :: cs =>
          rw [hb] at hy
          simp only [List.head?_cons, Option.mem_def, Option.some.injEq] at hy
          rw [← hy]
          simp [regFirst, hb]
      have hsep2 : RegSep r r2 := (List.pairwise_cons.mp hsep).1 r2 (by simp)
      rw [hxv, hyv]
      exact hsep2

/-- The synthesized multi-pass region of a well-formed separated band group
is well-formed, starts where the first band starts and ends where the last
band ends. -/
theorem mkMultiPassRegion_ok (first : Region) (ext : List Region)
    (all_blocks : List BlockResult)
    (hOK : ∀ r ∈ first :: ext, RegionOK r)
    (hsep : (first :: ext).Pairwise RegSep) :
    RegionOK (mkMultiPassRegion first ext all_blocks) ∧
    regFirst (mkMultiPassRegion first ext all_blocks) = regFirst first ∧
    regLast (mkMultiPassRegion first ext all_blocks) =
      regLast ((first :: ext).getLast (List.cons_ne_nil _ _)) := by
  have hfne := (hOK first (by simp)).1
  have hblocks : (mkMultiPassRegion first ext all_blocks).blocks =
      ((first :: ext).map Region.blocks).flatten := rfl
  have hfirst : regFirst (mkMultiPassRegion first ext all_blocks) = regFirst first := by
    unfold regFirst
    rw [hblocks, flatten_blocks_head first ext hfne]
  have hlast : regLast (mkMultiPassRegion first ext all_blocks) =
      regLast ((first :: ext).getLast (List.cons_ne_nil _ _)) := by
    unfold regLast
    rw [hblocks, flatten_blocks_getLast (first :: ext) (List.cons_ne_nil _ _)
      (fun r hr => (hOK r hr).1)]
  have hlOK := hOK ((first :: ext).getLast (List.cons_ne_nil _ _)) (List.getLast_mem _)
  refine ⟨⟨?_, ?_, ?_, ?_⟩, hfirst, hlast⟩
  · rw [hblocks]
    match hb : first.blocks with
    | [] => exact absurd hb hfne
    | x :: xs => simp [hb]
  · rw [hblocks]
    exact chain'_flatten_of_sep _ hOK hsep
  · show (mkMultiPassRegion first ext all_blocks).start_offset = _
    rw [hfirst]
    simpa [mkMultiPassRegion] using (hOK first (by simp)).2.2.1
  · show (mkMultiPassRegion first ext all_blocks).end_offset = _
    rw [hlast]
    simpa [mkMultiPassRegion] using hlOK.2.2.2

/-- Stage 4 invariant: the multi-pass detection loop preserves
well-formedness and separation, and every output region starts where some
input region starts. -/
theorem detectGoF_regionsOK (all_blocks : List BlockResult) (fuel : ℕ)
    (l : List Region) (h : RegionsOK l) :
    RegionsOK (detectGoF all_blocks fuel l) ∧
    ∀ s ∈ detectGoF all_blocks fuel l, ∃ t ∈ l, regFirst s = regFirst t := by
  induction fuel generalizing l with
  | zero => exact ⟨⟨by simp [detectGoF], by simp [detectGoF]⟩, by simp [detectGoF]⟩
  | succ fuel ih =>
    match l with
    | [] => exact ⟨⟨by simp [detectGoF_nil], by simp [detectGoF_nil]⟩, by simp [detectGoF_nil]⟩
    | r :: rest =>
      obtain ⟨hOK, hsep⟩ := h
      have hsplit : (bandExtend r rest).1 ++ (bandExtend r rest).2 = rest :=
        bandExtend_eq_append r rest
      have hg_sub : (r :: (bandExtend r rest).1).Sublist (r :: rest) :=
        (bandExtend_fst_sublist r rest).cons₂ r
      have hrem_sub : (bandExtend r rest).2.Sublist rest :=
        bandExtend_snd_sublist r rest
      have hgOK : ∀ x ∈ r :: (bandExtend r rest).1, RegionOK x :=
        fun x hx => hOK x (hg_sub.mem hx)
      have hgSep : (r :: (bandExtend r rest).1).Pairwise RegSep := hsep.sublist hg_sub
      have hremOK : RegionsOK (bandExtend r rest).2 :=
        ⟨fun x hx => hOK x (List.mem_cons_of_mem _ (hrem_sub.mem hx)),
         (List.Pairwise.of_cons hsep).sublist hrem_sub⟩
      rw [detectGoF]
      split
      · obtain ⟨hsOK, hsFirst, hsLast⟩ :=
          mkMultiPassRegion_ok r (bandExtend r rest).1 all_blocks hgOK hgSep
        obtain ⟨⟨hrecOK, hrecSep⟩, hrecOrig⟩ := ih (bandExtend r rest).2 hremOK
        have hglast_mem : (r :: (bandExtend r rest).1).getLast (List.cons_ne_nil _ _) ∈
            r :: (bandExtend r rest).1 := List.getLast_mem _
        refine ⟨⟨?_, ?_⟩, ?_⟩
        · intro x hx
          rcases List.mem_cons.mp hx with hx | hx
          · subst hx; exact hsOK
          · exact hrecOK x hx
        · rw [List.pairwise_cons]
          refine ⟨?_, hrecSep⟩
          intro s hs
          obtain ⟨t, ht, hte⟩ := hrecOrig s hs
          unfold RegSep
          rw [hsLast, hte]
          have hcross : RegSep ((r :: (bandExtend r rest).1).getLast
              (List.cons_ne_nil _ _)) t := by
            have hmem := hg_sub.mem hglast_mem
            rcases List.mem_cons.mp hmem with hx | hx
            · rw [hx]
              exact (List.pairwise_cons.mp hsep).1 t (hrem_sub.mem ht)
            · have hpr : rest.Pairwise RegSep := List.Pairwise.of_cons hsep
              rw [← hsplit] at hpr
              rw [List.pairwise_append] at hpr
              rcases List.mem_cons.mp hglast_mem with hy | hy
              · rw [hy]
                exact (List.pairwise_cons.mp hsep).1 t (hrem_sub.mem ht)
              · exact hpr.2.2 _ hy t ht
          exact hcross
        · intro s hs
          rcases List.mem_cons.mp hs with hs | hs
          · exact ⟨r, by simp, by rw [hs]; exact hsFirst⟩
          · obtain ⟨t, ht, hte⟩ := hrecOrig s hs
            exact ⟨t, List.mem_cons_of_mem _ (hrem_sub.mem ht), hte⟩
      · obtain ⟨⟨hrecOK, hrecSep⟩, hrecOrig⟩ := ih rest
          ⟨fun x hx => hOK x (List.mem_cons_of_mem _ hx), List.Pairwise.of_cons hsep⟩
        refine ⟨⟨?_, ?_⟩, ?_⟩
        · intro x hx
          rcases List.mem_cons.mp hx with hx | hx
          · rw [hx]; exact hOK r (by simp)
          · exact hrecOK x hx
        · rw [List.pairwise_cons]
          refine ⟨?_, hrecSep⟩
          intro s hs
          obtain ⟨t, ht, hte⟩ := hrecOrig s hs
          unfold RegSep
          rw [hte]
          exact (List.pairwise_cons.mp hsep).1 t ht
        · intro s hs
          rcases List.mem_cons.mp hs with hs | hs
          · exact ⟨r, by simp, by rw [hs]⟩
          · obtain ⟨t, ht, hte⟩ := hrecOrig s hs
            exact ⟨t, List.mem_cons_of_mem _ ht, hte⟩


/-- Stage 4 preserves the region invariants. -/
theorem detectMultiPass_regionsOK (rs : List Region)
    (all_blocks : List BlockResult) (h : RegionsOK rs) :
    RegionsOK (detectMultiPass rs all_blocks) := by
  unfold detectMultiPass
  split
  · exact h
  · exact (detectGoF_regionsOK all_blocks rs.length rs h).1

/-- Stage 4 preserves the minimum-size invariant: the synthesized region's
`block_count` is the sum over its bands. -/
theorem detectGoF_min_blocks (all_blocks : List BlockResult) (fuel : ℕ)
    (l : List Region) (h : ∀ r ∈ l, MIN_REGION_BLOCKS ≤ r.block_count) :
    ∀ s ∈ detectGoF all_blocks fuel l, MIN_REGION_BLOCKS ≤ s.block_count := by
  induction fuel generalizing l with
  | zero => simp [detectGoF]
  | succ fuel ih =>
    match l with
    | [] => simp [detectGoF_nil]
    | r :: rest =>
      have hsplit := bandExtend_eq_append r rest
      rw [detectGoF]
      split
      · intro s hs
        rcases List.mem_cons.mp hs with hs | hs
        · subst hs
          show MIN_REGION_BLOCKS ≤ (((r :: (bandExtend r rest).1).map
            Region.block_count).sum)
          have h1 : MIN_REGION_BLOCKS ≤ r.block_count := h r (by simp)
          simp only [List.map_cons, List.sum_cons]
          omega
        · refine ih (bandExtend r rest).2 ?_ s hs
          intro x hx
          refine h x (List.mem_cons_of_mem _ ?_)
          rw [← hsplit]
          exact (List.sublist_append_right _ _).mem hx
      · intro s hs
        rcases List.mem_cons.mp hs with hs | hs
        · rw [hs]; exact h r (by simp)
        · exact ih rest (fun x hx => h x (List.mem_cons_of_mem _ hx)) s hs

/-- Stage 5 preserves the region invariants (it keeps a sublist). -/
theorem suppressFalsePositives_regionsOK (rs : List Region) (h : RegionsOK rs) :
    RegionsOK (suppressFalsePositives rs) :=
  ⟨fun r hr => h.1 r ((List.filter_sublist _).mem hr),
   h.2.sublist (List.filter_sublist _)⟩

/-- Stage 6 changes only the `confidence` field. -/
theorem setConfidence_fields (all_blocks : List BlockResult) (r : Region) :
    (setConfidence all_blocks r).blocks = r.blocks ∧
    (setConfidence all_blocks r).start_offset = r.start_offset ∧
    (setConfidence all_blocks r).end_offset = r.end_offset ∧
    (setConfidence all_blocks r).wipe_type = r.wipe_type ∧
    (setConfidence all_blocks r).block_count = r.block_count := by
  unfold setConfidence
  dsimp only
  split <;> exact ⟨rfl, rfl, rfl, rfl, rfl⟩

/-- `RegionOK` depends only on the fields `setConfidence` keeps. -/
theorem setConfidence_regionOK (all_blocks : List BlockResult) {r : Region}
    (h : RegionOK r) : RegionOK (setConfidence all_blocks r) := by
  obtain ⟨hb, hs, he, ht⟩ := setConfidence_fields all_blocks r
  exact ⟨by rw [hb]; exact h.1, by rw [hb]; exact h.2.1,
    by rw [hs, regFirst, hb]; exact h.2.2.1,
    by rw [he, regLast, hb]; exact h.2.2.2⟩

/-- Stage 6 preserves the region invariants. -/
theorem computeConfidence_regionsOK (rs : List Region)
    (all_blocks : List BlockResult) (h : RegionsOK rs) :
    RegionsOK (computeConfidence rs all_blocks) := by
  constructor
  · intro r hr
    obtain ⟨x, hx, hxe⟩ := List.mem_map.mp hr
    rw [← hxe]
    exact setConfidence_regionOK all_blocks (h.1 x hx)
  · refine h.2.map _ ?_
    intro a b hab
    obtain ⟨hba, -⟩ := setConfidence_fields all_blocks a
    obtain ⟨hbb, -⟩ := setConfidence_fields all_blocks b
    unfold RegSep regFirst regLast at *
    rw [hba, hbb]
    exact hab

/-- Id assignment changes only the `id` field. -/
theorem assignIds_regionsOK (i : ℕ) (rs : List Region) (h : RegionsOK rs) :
    RegionsOK (assignIds i rs) := by
  induction rs generalizing i with
  | nil => exact ⟨by simp [assignIds], by simp [assignIds]⟩
  | cons r rest ih =>
    obtain ⟨hOK, hsep⟩ := h
    obtain ⟨hrecOK, hrecSep⟩ := ih (i + 1)
      ⟨fun x hx => hOK x (List.mem_cons_of_mem _ hx), List.Pairwise.of_cons hsep⟩
    rw [assignIds]
    refine ⟨?_, ?_⟩
    · intro x hx
      rcases List.mem_cons.mp hx with hx | hx
      · subst hx
        have hr := hOK r (by simp)
        exact ⟨hr.1, hr.2.1, hr.2.2.1, hr.2.2.2⟩
      · exact hrecOK x hx
    · rw [List.pairwise_cons]
      refine ⟨?_, hrecSep⟩
      intro s hs
      have horig : ∀ j l s, s ∈ assignIds j l → ∃ t ∈ l, s.blocks = t.blocks := by
        intro j l
        induction l generalizing j with
        | nil => simp [assignIds]
        | cons y ys ihy =>
          intro s hs
          rw [assignIds] at hs
          rcases List.mem_cons.mp hs with hs | hs
          · exact ⟨y, by simp, by rw [hs]⟩
          · obtain ⟨t, ht, hte⟩ := ihy (j + 1) s hs
            exact ⟨t, List.mem_cons_of_mem _ ht, hte⟩
      obtain ⟨t, ht, hte⟩ := horig (i + 1) rest s hs
      have := (List.pairwise_cons.mp hsep).1 t ht
      unfold RegSep regFirst regLast at *
      rw [hte]
      exact this

/-- Id assignment maps each region to itself with a fresh id. -/
theorem assignIds_mem (i : ℕ) (l : List Region) :
    ∀ s ∈ assignIds i l, ∃ t ∈ l, ∃ j, s = { t with id := j } := by
  induction l generalizing i with
  | nil => simp [assignIds]
  | cons r rest ih =>
    intro s hs
    rw [assignIds] at hs
    rcases List.mem_cons.mp hs with hs | hs
    · exact ⟨r, by simp, i, hs⟩
    · obtain ⟨t, ht, j, hte⟩ := ih (i + 1) s hs
      exact ⟨t, List.mem_cons_of_mem _ ht, j, hte⟩

/-- The full pipeline `aggregate` preserves the region invariants on a
strictly id-ascending stream. -/
theorem aggregate_regionsOK (results : List BlockResult)
    (h : results.Pairwise (fun a b => a.block_id < b.block_id)) :
    RegionsOK (aggregate results) := by
  match results with
  | [] => exact ⟨by simp [aggregate], by simp [aggregate]⟩
  | b :: rest =>
    have hagg : aggregate (b :: rest) =
        assignIds 1 (computeConfidence (suppressFalsePositives
          (detectMultiPass (filterBySize (absorbNoise
            (mergeConsecutive 0 (b :: rest)) (b :: rest))) (b :: rest)))
          (b :: rest)) := rfl
    rw [hagg]
    exact assignIds_regionsOK _ _ (computeConfidence_regionsOK _ _
      (suppressFalsePositives_regionsOK _ (detectMultiPass_regionsOK _ _
        (filterBySize_regionsOK _ (absorbNoise_regionsOK _ _
          (mergeConsecutive_regionsOK 0 _ h))))))

-- ─────────────────────────────────────────────────────────────────────────
-- Claim C5
-- ─────────────────────────────────────────────────────────────────────────

/-- C5: on a strictly block-id-ascending input, the regions returned by
`aggregate` are pairwise non-overlapping and sorted by offset
(`end_offset < start_offset` of every later region), and every region has a
non-empty strictly increasing member list with
`start_offset = blocks[0] * BLOCK_SIZE` and
`end_offset = blocks[-1] * BLOCK_SIZE + BLOCK_SIZE - 1`. -/
theorem C5_regions_sorted_disjoint (results : List BlockResult)
    (h : results.Pairwise (fun a b => a.block_id < b.block_id)) :
    (aggregate results).Pairwise (fun r1 r2 => r1.end_offset < r2.start_offset) ∧
    ∀ r ∈ aggregate results, r.blocks ≠ [] ∧ r.blocks.Chain' (· < ·) ∧
      r.start_offset = regFirst r * BLOCK_SIZE ∧
      r.end_offset = regLast r * BLOCK_SIZE + (BLOCK_SIZE - 1) := by
  obtain ⟨hOK, hsep⟩ := aggregate_regionsOK results h
  constructor
  · refine hsep.imp_of_mem ?_
    intro r1 r2 h1 h2 hs
    exact RegSep.offset_lt (hOK r1 h1) (hOK r2 h2) hs
  · exact hOK

/-- C5 witness: the statement at the concrete 18-block input `run16`. -/
theorem C5_witness :
    (aggregate run16).Pairwise (fun r1 r2 => r1.end_offset < r2.start_offset) ∧
    ∀ r ∈ aggregate run16, r.blocks ≠ [] ∧ r.blocks.Chain' (· < ·) ∧
      r.start_offset = regFirst r * BLOCK_SIZE ∧
      r.end_offset = regLast r * BLOCK_SIZE + (BLOCK_SIZE - 1) :=
  C5_regions_sorted_disjoint run16 (by decide)

-- ─────────────────────────────────────────────────────────────────────────
-- Claim C4
-- ─────────────────────────────────────────────────────────────────────────

/-- Every region surviving the whole pipeline has at least
`MIN_REGION_BLOCKS` member blocks. -/
theorem aggregate_min_blocks (results : List BlockResult) :
    ∀ r ∈ aggregate results, MIN_REGION_BLOCKS ≤ r.block_count := by
  match results with
  | [] => simp [aggregate]
  | b :: rest =>
    have hagg : aggregate (b :: rest) =
        assignIds 1 (computeConfidence (suppressFalsePositives
          (detectMultiPass (filterBySize (absorbNoise
            (mergeConsecutive 0 (b :: rest)) (b :: rest))) (b :: rest)))
          (b :: rest)) := rfl
    rw [hagg]
    intro r hr
    obtain ⟨t, ht, j, hte⟩ := assignIds_mem 1 _ r hr
    obtain ⟨u, hu, hue⟩ := List.mem_map.mp ht
    have hcnt1 : r.block_count = u.block_count := by
      rw [hte, ← hue]
      exact (setConfidence_fields _ _).2.2.2.2
    rw [hcnt1]
    have hu2 : u ∈ detectMultiPass (filterBySize (absorbNoise
        (mergeConsecutive 0 (b :: rest)) (b :: rest))) (b :: rest) :=
      (List.filter_sublist _).mem hu
    have hmin : ∀ x ∈ filterBySize (absorbNoise
        (mergeConsecutive 0 (b :: rest)) (b :: rest)),
        MIN_REGION_BLOCKS ≤ x.block_count := filterBySize_min_blocks _
    unfold detectMultiPass at hu2
    split at hu2
    · exact hmin u hu2
    · exact detectGoF_min_blocks _ _ _ hmin u hu2

section
attribute [local semireducible] Rat.add Rat.mul Rat.sub Rat.inv Rat.ofScientific

/-- C4: every region in the output of `aggregate` has
`block_count ≥ MIN_REGION_BLOCKS = 16`; consequently the 17-block input with
a run of exactly 15 consecutive ZERO_WIPE blocks yields no region, while the
18-block input with a run of 16 yields exactly one region. -/
theorem C4_min_region_size :
    (∀ results : List BlockResult, ∀ r ∈ aggregate results,
      MIN_REGION_BLOCKS ≤ r.block_count) ∧
    aggregate run15 = [] ∧
    (aggregate run16).length = 1 :=
  ⟨aggregate_min_blocks, by decide, by decide⟩

/-- C4 witness: the surviving region of the 16-run input has 16 member
blocks. -/
theorem C4_witness :
    MIN_REGION_BLOCKS ≤ ((aggregate run16).headI).block_count :=
  C4_min_region_size.1 run16 ((aggregate run16).headI) (by decide)

end

-- ─────────────────────────────────────────────────────────────────────────
-- Claim C1 (corrected)
-- ─────────────────────────────────────────────────────────────────────────

/-- Each merged region carries the wipe type of one of its suspicious
member blocks. -/
theorem mergeConsecutiveF_types (fuel rid : ℕ) (l : List BlockResult) :
    ∀ r ∈ mergeConsecutiveF rid fuel l,
      ∃ b ∈ l, b.is_suspicious = true ∧ r.wipe_type = b.wipe_type := by
  induction fuel generalizing rid l with
  | zero => simp [mergeConsecutiveF]
  | succ fuel ih =>
    match l with
    | [] => simp [mergeConsecutiveF]
    | b :: rest =>
      rw [mergeConsecutiveF]
      split
      · intro r hr
        rcases List.mem_cons.mp hr with hr | hr
        · refine ⟨b, by simp, by assumption, ?_⟩
          rw [hr]
          rfl
        · obtain ⟨x, hx, hxs, hxe⟩ := ih _ _ r hr
          exact ⟨x, List.mem_cons_of_mem _ ((List.dropWhile_sublist _).mem hx), hxs, hxe⟩
      · intro r hr
        obtain ⟨x, hx, hxs, hxe⟩ := ih _ _ r hr
        exact ⟨x, List.mem_cons_of_mem _ hx, hxs, hxe⟩

/-- Noise absorption only reuses wipe types already present. -/
theorem absorbGo_types (all_blocks : List BlockResult) (p : Region)
    (l : List Region) :
    ∀ s ∈ absorbGo all_blocks p l,
      s.wipe_type = p.wipe_type ∨ ∃ r ∈ l, s.wipe_type = r.wipe_type := by
  induction l generalizing p with
  | nil =>
    intro s hs
    rw [absorbGo] at hs
    rcases List.mem_cons.mp hs with hs | hs
    · exact Or.inl (by rw [hs])
    · simp at hs
  | cons curr rest ih =>
    intro s hs
    rw [absorbGo] at hs
    split at hs
    · rcases ih (fuseRegions p curr all_blocks) s hs with h | ⟨r, hr, hre⟩
      · exact Or.inl (by rw [h]; rfl)
      · exact Or.inr ⟨r, List.mem_cons_of_mem _ hr, hre⟩
    · rcases List.mem_cons.mp hs with hs | hs
      · exact Or.inl (by rw [hs])
      · rcases ih curr s hs with h | ⟨r, hr, hre⟩
        · exact Or.inr ⟨curr, by simp, h⟩
        · exact Or.inr ⟨r, List.mem_cons_of_mem _ hr, hre⟩

/-- Band extension collects nothing when no strong wipe types are
present. -/
theorem bandExtend_of_no_strong (prev : Region) (l : List Region)
    (h : ∀ r ∈ l, r.wipe_type ∉ STRONG_WIPE_TYPES) :
    bandExtend prev l = ([], l) := by
  match l with
  | [] => rfl
  | c :: cs =>
    rw [bandExtend]
    rw [if_neg]
    rintro ⟨-, halt⟩
    exact h c (by simp) halt.2.1

/-- Multi-pass detection is the identity when no strong wipe types are
present. -/
theorem detectGoF_of_no_strong (all_blocks : List BlockResult) (fuel : ℕ)
    (l : List Region) (hfuel : l.length ≤ fuel)
    (h : ∀ r ∈ l, r.wipe_type ∉ STRONG_WIPE_TYPES) :
    detectGoF all_blocks fuel l = l := by
  induction fuel generalizing l with
  | zero =>
    match l with
    | [] => rfl
    | r :: rest => simp at hfuel
  | succ fuel ih =>
    match l with
    | [] => rfl
    | r :: rest =>
      rw [detectGoF]
      rw [bandExtend_of_no_strong r rest (fun x hx => h x (List.mem_cons_of_mem _ hx))]
      rw [if_neg (by simp [MULTI_PASS_MIN_BANDS])]
      rw [ih rest (by simpa using Nat.le_of_succ_le_succ (by simpa using hfuel))
        (fun x hx => h x (List.mem_cons_of_mem _ hx))]

/-- Suppression removes every region when all regions are of partial type
and none is strong. -/
theorem suppress_all_partial (l : List Region)
    (hpart : ∀ r ∈ l, r.wipe_type ∈ PARTIAL_WIPE_TYPES) :
    suppressFalsePositives l = [] := by
  have hstrongnil :
      l.filter (fun r => decide (r.wipe_type ∈ STRONG_WIPE_TYPES)) = [] := by
    rw [List.filter_eq_nil_iff]
    intro r hr
    have := hpart r hr
    revert this
    unfold PARTIAL_WIPE_TYPES STRONG_WIPE_TYPES
    cases r.wipe_type <;> simp
  unfold suppressFalsePositives
  rw [hstrongnil]
  rw [List.filter_eq_nil_iff]
  intro r hr
  have := hpart r hr
  simp [this, corroborated]

/-- When every suspicious block is LIKELY_ZERO_WIPE, the full aggregation
pipeline suppresses everything. -/
theorem aggregate_all_likely_empty (results : List BlockResult)
    (h1 : ∀ b ∈ results, b.is_suspicious = true → b.wipe_type = LIKELY_ZERO_WIPE) :
    aggregate results = [] := by
  match results with
  | [] => rfl
  | b :: rest =>
    have hagg : aggregate (b :: rest) =
        assignIds 1 (computeConfidence (suppressFalsePositives
          (detectMultiPass (filterBySize (absorbNoise
            (mergeConsecutive 0 (b :: rest)) (b :: rest))) (b :: rest)))
          (b :: rest)) := rfl
    have hmerge : ∀ r ∈ mergeConsecutive 0 (b :: rest),
        r.wipe_type = LIKELY_ZERO_WIPE := by
      intro r hr
      obtain ⟨x, hx, hxs, hxe⟩ := mergeConsecutiveF_types _ 0 _ r hr
      rw [hxe]
      exact h1 x hx hxs
    have habsorb : ∀ r ∈ absorbNoise (mergeConsecutive 0 (b :: rest)) (b :: rest),
        r.wipe_type = LIKELY_ZERO_WIPE := by
      intro r hr
      unfold absorbNoise at hr
      match hm : mergeConsecutive 0 (b :: rest) with
      | [] => rw [hm] at hr; simp at hr
      | r0 :: rs =>
        rw [hm] at hr
        rcases absorbGo_types (b :: rest) r0 rs r hr with h | ⟨x, hx, hxe⟩
        · rw [h]
          exact hmerge r0 (by rw [hm]; simp)
        · rw [hxe]
          exact hmerge x (by rw [hm]; exact List.mem_cons_of_mem _ hx)
    have hfilter : ∀ r ∈ filterBySize (absorbNoise
        (mergeConsecutive 0 (b :: rest)) (b :: rest)),
        r.wipe_type = LIKELY_ZERO_WIPE :=
      fun r hr => habsorb r ((List.filter_sublist _).mem hr)
    have hdetect : detectMultiPass (filterBySize (absorbNoise
        (mergeConsecutive 0 (b :: rest)) (b :: rest))) (b :: rest) =
        filterBySize (absorbNoise (mergeConsecutive 0 (b :: rest)) (b :: rest)) := by
      unfold detectMultiPass
      split
      · rfl
      · refine detectGoF_of_no_strong _ _ _ le_rfl ?_
        intro r hr
        rw [hfilter r hr]
        unfold STRONG_WIPE_TYPES
        simp
    rw [hagg, hdetect, suppress_all_partial _ (by
      intro r hr
      rw [hfilter r hr]
      unfold PARTIAL_WIPE_TYPES
      simp)]
    rfl

/-- The fallback aggregation produces at least one region whenever a
suspicious block exists (or a run is already open). -/
theorem fallbackGo_ne_nil (bs : ℤ) (rid : ℕ) (acc : List BlockResult)
    (l : List BlockResult)
    (h : acc ≠ [] ∨ ∃ b ∈ l, b.is_suspicious = true) :
    fallbackGo bs rid acc l ≠ [] := by
  induction l generalizing rid acc with
  | nil =>
    rcases h with h | ⟨b, hb, -⟩
    · rw [fallbackGo]
      match ha : acc.reverse with
      | [] => exact absurd (by simpa using congrArg List.reverse ha) h
      | x :: xs => simp
    · simp at hb
  | cons blk rest ih =>
    rw [fallbackGo]
    split
    · exact ih rid (blk :: acc) (Or.inl (by simp))
    · match ha : acc.reverse with
      | [] =>
        refine ih rid [] (Or.inr ?_)
        rcases h with h | ⟨b, hb, hbs⟩
        · exact absurd (by simpa using congrArg List.reverse ha) h
        · rcases List.mem_cons.mp hb with hb | hb
          · rw [hb] at hbs
            exact absurd hbs ‹¬blk.is_suspicious = true›
          · exact ⟨b, hb, hbs⟩
      | x :: xs => simp

/-- With at least two suspicious blocks the density fast path never returns
NEGLIGIBLE. -/
theorem densityVerdict_ne_negligible (d : ℚ) (n : ℕ) (h : 2 ≤ n) :
    densityVerdict d n ≠ NEGLIGIBLE := by
  unfold densityVerdict
  split_ifs <;> simp_all

/-- The final verdict is NEGLIGIBLE only if both components are. -/
theorem verdictOfIdx_max_ne_negligible (a b : Verdict) (hb : b ≠ NEGLIGIBLE) :
    verdictOfIdx (max (verdictIdx a) (verdictIdx b)) ≠ NEGLIGIBLE := by
  cases a <;> cases b <;> first | exact absurd rfl hb | simp [verdictIdx, verdictOfIdx]

/-- C1 as amended: when the classified blocks contain a single isolated
LIKELY_ZERO_WIPE region (every suspicious block is LIKELY_ZERO_WIPE, at
least two of them) with no strong-wipe evidence anywhere, `aggregate` does
suppress the region — but the orchestrator's fallback
(`scanner.py` lines 199-209) then rebuilds at least one region from the
suspicious blocks, and the density fast path (`suspicious >= 2`) keeps the
verdict at least LOW, so the pipeline result has `regions_count >= 1` and a
verdict different from NEGLIGIBLE. -/
theorem C1_amended (results : List BlockResult)
    (h1 : ∀ b ∈ results, b.is_suspicious = true → b.wipe_type = LIKELY_ZERO_WIPE)
    (h2 : 2 ≤ (suspiciousOf results).length) :
    aggregate results = [] ∧
    1 ≤ (pipelineRegions results).length ∧
    (pipelineStats results).verdict ≠ NEGLIGIBLE := by
  have hagg := aggregate_all_likely_empty results h1
  have hsusp_ne : suspiciousOf results ≠ [] := by
    intro hc
    rw [hc] at h2
    simp at h2
  obtain ⟨b0, hb0⟩ := List.exists_mem_of_ne_nil _ hsusp_ne
  have hb0s : b0.is_suspicious = true := by
    have := List.of_mem_filter hb0
    simpa using this
  have hb0m : b0 ∈ results := List.mem_of_mem_filter hb0
  have hfb : pipelineRegions results = fallbackAggregate results := by
    unfold pipelineRegions
    rw [if_pos]
    constructor
    · rw [hagg]; rfl
    · have : 0 < (suspiciousOf results).length := by
        match hs : suspiciousOf results with
        | [] => exact absurd hs hsusp_ne
        | x :: xs => simp
      exact this
  have hne : fallbackAggregate results ≠ [] := by
    unfold fallbackAggregate
    exact fallbackGo_ne_nil _ 0 [] results (Or.inr ⟨b0, hb0m, hb0s⟩)
  refine ⟨hagg, ?_, ?_⟩
  · rw [hfb]
    match hs : fallbackAggregate results with
    | [] => exact absurd hs hne
    | x :: xs => simp
  · have hres_ne : ¬ results.length = 0 := by
      intro hc
      rw [List.length_eq_zero] at hc
      rw [hc] at hb0m
      simp at hb0m
    unfold pipelineStats compute_score
    rw [if_neg hres_ne]
    dsimp only
    exact verdictOfIdx_max_ne_negligible _ _
      (densityVerdict_ne_negligible _ _ h2)

/-- The concrete 41-block scan of the claim: blocks 0-39 form one isolated
LIKELY_ZERO_WIPE region of 40 blocks, block 40 is NORMAL, and no strong
wipe type occurs anywhere. -/
def c1Blocks : List BlockResult :=
  (List.range 41).map (fun i =>
    if i < 40 then ⟨i, 512 * i, LIKELY_ZERO_WIPE, 2, 1/2, 0, 7/10, true, 7/10, 1/10⟩
    else nb i)

section
attribute [local semireducible] Rat.add Rat.mul Rat.sub Rat.inv Rat.ofScientific

/-- C1 counterexample: on the 41-block scan above the pipeline reports
`regions_count = 1` (the fallback resurrects the suppressed region) and
verdict HIGH (density 40/41 > 0.30), not `regions_count = 0` and
NEGLIGIBLE as claimed. -/
theorem C1_counterexample :
    (pipelineStats c1Blocks).regions_count = 1 ∧
    (pipelineStats c1Blocks).verdict = HIGH ∧
    ¬((pipelineStats c1Blocks).regions_count = 0 ∧
      (pipelineStats c1Blocks).verdict = NEGLIGIBLE) := by
  refine ⟨by decide, by decide, ?_⟩
  rintro ⟨hc, -⟩
  exact absurd hc (by decide)

/-- C1 witness: the amended statement at the concrete 41-block scan. -/
theorem C1_witness :
    aggregate c1Blocks = [] ∧
    1 ≤ (pipelineRegions c1Blocks).length ∧
    (pipelineStats c1Blocks).verdict ≠ NEGLIGIBLE :=
  C1_amended c1Blocks (by decide) (by decide)

end

-- ─────────────────────────────────────────────────────────────────────────
-- Claim C6 (corrected)
-- ─────────────────────────────────────────────────────────────────────────

/-- Mean classifier entropy over the given member block indices that are in
range of the classifier output (the quantity named in the spec's
noise-absorption sentence). -/
def meanEntropyOver (ids : List ℕ) (all_blocks : List BlockResult) : ℚ :=
  let es := (ids.filter (fun bid => decide (bid < all_blocks.length))).map
      (fun bid => ((all_blocks.get? bid).getD default).entropy)
  if es = [] then 0 else es.sum / (es.length : ℚ)

/-- C6 as amended: when two adjacent regions of the same wipe type with a
block-index gap of at most `MAX_NORMAL_GAP = 8` are fused, the fused
region's member list does contain the intervening block indices, but its
`avg_entropy` is the mean classifier entropy over the two original
regions' member indices only (`all_ids = prev.blocks + curr.blocks` in
`_absorb_noise`), not over all member indices. -/
theorem C6_absorb_amended (prev curr : Region) (rest : List Region)
    (all_blocks : List BlockResult)
    (ht : prev.wipe_type = curr.wipe_type)
    (hg : gapBlocks prev curr ≤ (MAX_NORMAL_GAP : ℤ)) :
    absorbGo all_blocks prev (curr :: rest) =
      absorbGo all_blocks (fuseRegions prev curr all_blocks) rest ∧
    (fuseRegions prev curr all_blocks).blocks =
      prev.blocks ++ List.range' (regLast prev + 1)
        (regFirst curr - (regLast prev + 1)) ++ curr.blocks ∧
    (∀ bid : ℕ, regLast prev < bid → bid < regFirst curr →
      bid ∈ (fuseRegions prev curr all_blocks).blocks) ∧
    (fuseRegions prev curr all_blocks).avg_entropy =
      meanEntropyOver (prev.blocks ++ curr.blocks) all_blocks := by
  refine ⟨?_, rfl, ?_, rfl⟩
  · rw [absorbGo, if_pos ⟨ht, hg⟩]
  · intro bid h1 h2
    show bid ∈ prev.blocks ++ List.range' (regLast prev + 1)
        (regFirst curr - (regLast prev + 1)) ++ curr.blocks
    rw [List.mem_append, List.mem_append]
    refine Or.inl (Or.inr ?_)
    rw [List.mem_range']
    exact ⟨bid - (regLast prev + 1), by omega, by omega⟩

/-- All-blocks vector for the C6 counterexample: entropy 0 everywhere
except blocks 16 and 17 (entropy 4). -/
def c6AllBlocks : List BlockResult :=
  (List.range 34).map (fun i => if 16 ≤ i ∧ i ≤ 17 then nb i else zb i)

/-- First ZERO_WIPE region of the C6 counterexample: blocks 0-15. -/
def c6R1 : Region :=
  ⟨0, 0, 15 * 512 + 511, 16 * 512, ZERO_WIPE, 16, 0, 0, List.range' 0 16⟩

/-- Second ZERO_WIPE region of the C6 counterexample: blocks 18-33. -/
def c6R2 : Region :=
  ⟨1, 18 * 512, 33 * 512 + 511, 16 * 512, ZERO_WIPE, 16, 0, 0, List.range' 18 16⟩

section
attribute [local semireducible] Rat.add Rat.mul Rat.sub Rat.inv Rat.ofScientific

/-- C6 counterexample: fusing the two ZERO_WIPE regions across the
two-block NORMAL gap (entropy 4 at blocks 16 and 17) produces
`avg_entropy = 0` — the mean over the two original regions' blocks — while
the mean over all member block indices, as the claim states it, is
`8/34 = 4/17`. -/
theorem C6_counterexample :
    absorbNoise [c6R1, c6R2] c6AllBlocks = [fuseRegions c6R1 c6R2 c6AllBlocks] ∧
    (fuseRegions c6R1 c6R2 c6AllBlocks).blocks = List.range' 0 34 ∧
    (fuseRegions c6R1 c6R2 c6AllBlocks).avg_entropy = 0 ∧
    meanEntropyOver (fuseRegions c6R1 c6R2 c6AllBlocks).blocks c6AllBlocks = 4/17 ∧
    (fuseRegions c6R1 c6R2 c6AllBlocks).avg_entropy ≠
      meanEntropyOver (fuseRegions c6R1 c6R2 c6AllBlocks).blocks c6AllBlocks := by
  refine ⟨by decide, by decide, by decide, by decide, by decide⟩

/-- C6 witness: the amended statement at the two concrete regions. -/
theorem C6_witness :
    absorbGo c6AllBlocks c6R1 [c6R2] =
      absorbGo c6AllBlocks (fuseRegions c6R1 c6R2 c6AllBlocks) [] ∧
    (fuseRegions c6R1 c6R2 c6AllBlocks).blocks =
      c6R1.blocks ++ List.range' (regLast c6R1 + 1)
        (regFirst c6R2 - (regLast c6R1 + 1)) ++ c6R2.blocks ∧
    (∀ bid : ℕ, regLast c6R1 < bid → bid < regFirst c6R2 →
      bid ∈ (fuseRegions c6R1 c6R2 c6AllBlocks).blocks) ∧
    (fuseRegions c6R1 c6R2 c6AllBlocks).avg_entropy =
      meanEntropyOver (c6R1.blocks ++ c6R2.blocks) c6AllBlocks :=
  C6_absorb_amended c6R1 c6R2 [] c6AllBlocks (by decide) (by decide)

end

-- ─────────────────────────────────────────────────────────────────────────
-- Claim C9: instrumented totality
-- ─────────────────────────────────────────────────────────────────────────

/-- Division instrumented with Python's `ZeroDivisionError` branch. -/
def divChk (a b : ℚ) : Option ℚ := if b = 0 then none else some (a / b)

/-- List indexing instrumented with Python's `IndexError` branch
(for the non-negative indices of this code). -/
def getChk (l : List BlockResult) (bid : ℕ) : Option BlockResult := l.get? bid

/-- A checked division by a non-zero denominator succeeds. -/
theorem divChk_eq_some {a b : ℚ} (h : b ≠ 0) : divChk a b = some (a / b) := by
  rw [divChk, if_neg h]

/-- Mapping a pointwise-successful fallible function succeeds. -/
theorem mapM_eq_some_map {α β : Type} (l : List α) (f : α → Option β) (g : α → β)
    (h : ∀ x ∈ l, f x = some (g x)) : l.mapM f = some (l.map g) := by
  induction l with
  | nil => rfl
  | cons a as ih =>
    rw [List.mapM_cons, h a (by simp), ih (fun x hx => h x (List.mem_cons_of_mem _ hx))]
    rfl

/-- The length of a non-empty list is non-zero as a rational. -/
theorem length_cast_ne_zero {α : Type} {l : List α} (h : l ≠ []) :
    (l.length : ℚ) ≠ 0 := by
  have : 0 < l.length := List.length_pos.mpr h
  exact_mod_cast Nat.pos_iff_ne_zero.mp this

/-- `has_legitimate_structure` with its per-bucket divisions checked. -/
def hlsChk (data : List ℕ) : Option Bool := do
  let sums ← (List.range 8).mapM (fun i =>
    divChk ((((List.range 32).map (fun j => byteCount data (32 * i + j))).sum : ℚ))
      (data.length : ℚ))
  some (if (data.take 16).any (fun b => COMPRESSED_MAGIC.contains b) then true
        else if sums.any (fun q => decide (q > (32/256 : ℚ) * (28/10))) then true
        else asciiRun 0 data)

/-- On non-empty data the checked structural test computes
`has_legitimate_structure`. -/
theorem hlsChk_eq (data : List ℕ) (h : data ≠ []) :
    hlsChk data = some (has_legitimate_structure data) := by
  have hn := length_cast_ne_zero h
  rw [hlsChk, mapM_eq_some_map _ _
    (fun i => ((((List.range 32).map (fun j => byteCount data (32 * i + j))).sum : ℚ))
      / (data.length : ℚ))
    (fun i _ => divChk_eq_some hn)]
  rfl

/-- `classify_block` with every data-dependent division checked (the
transcendental signals stay parameters, as in the pure embedding). -/
def classifyChk (block_id offset : ℕ) (data : List ℕ) (sig : EntropySignals) :
    Option BlockResult :=
  if data = [] then some (mkResult block_id offset NORMAL 0 1 0 1 false 0 0)
  else do
    let _ ← divChk (byteCount data 0 : ℚ) (data.length : ℚ)
    let _ ← divChk (byteCount data 255 : ℚ) (data.length : ℚ)
    let _ ← divChk (byteCount data (dominantByte data) : ℚ) (data.length : ℚ)
    let _ ← hlsChk data
    some (classify_block block_id offset data sig)

/-- The checked classifier always succeeds, with the pure result. -/
theorem classifyChk_eq (block_id offset : ℕ) (data : List ℕ)
    (sig : EntropySignals) :
    classifyChk block_id offset data sig =
      some (classify_block block_id offset data sig) := by
  rw [classifyChk]
  split
  · rw [classify_block]
    rw [if_pos ‹data = []›]
  · have hn := length_cast_ne_zero ‹¬data = []›
    rw [divChk_eq_some hn, divChk_eq_some hn, divChk_eq_some hn,
      hlsChk_eq data ‹¬data = []›]
    rfl

/-- The fuelled merge loop with its per-run average division checked. -/
def mergeChkF (rid : ℕ) : ℕ → List BlockResult → Option (List Region)
  | 0, _ => some []
  | _ + 1, [] => some []
  | fuel + 1, b :: rest =>
    if b.is_suspicious then do
      let _ ← divChk (((b :: rest.takeWhile (sameRun b.wipe_type)).map
          BlockResult.entropy).sum)
        ((b :: rest.takeWhile (sameRun b.wipe_type)).length : ℚ)
      let tl ← mergeChkF (rid + 1) fuel (rest.dropWhile (sameRun b.wipe_type))
      some (mkRunRegion rid b (rest.takeWhile (sameRun b.wipe_type)) :: tl)
    else mergeChkF rid fuel rest

/-- The checked merge loop always succeeds, with the pure result (the run
is structurally non-empty, so its length is non-zero). -/
theorem mergeChkF_eq (rid fuel : ℕ) (l : List BlockResult) :
    mergeChkF rid fuel l = some (mergeConsecutiveF rid fuel l) := by
  induction fuel generalizing rid l with
  | zero => rfl
  | succ fuel ih =>
    match l with
    | [] => rfl
    | b :: rest =>
      rw [mergeChkF, mergeConsecutiveF]
      split
      · rw [divChk_eq_some (length_cast_ne_zero (List.cons_ne_nil _ _)), ih]
        rfl
      · exact ih rid rest

/-- The entropy lookups of a fuse step, checked. -/
def entropiesChk (ids : List ℕ) (all_blocks : List BlockResult) :
    Option (List ℚ) :=
  (ids.filter (fun bid => decide (bid < all_blocks.length))).mapM
    (fun bid => (getChk all_blocks bid).map BlockResult.entropy)

/-- The checked entropy lookups succeed: the list is pre-filtered by the
source's `bid < len(all_blocks)` guard. -/
theorem entropiesChk_eq (ids : List ℕ) (all_blocks : List BlockResult) :
    entropiesChk ids all_blocks =
      some ((ids.filter (fun bid => decide (bid < all_blocks.length))).map
        (fun bid => ((all_blocks.get? bid).getD default).entropy)) := by
  refine mapM_eq_some_map _ _ _ ?_
  intro bid hbid
  have hlt : bid < all_blocks.length := by
    have := List.of_mem_filter hbid
    simpa using this
  have hx : all_blocks.get? bid = some (all_blocks.get ⟨bid, hlt⟩) :=
    List.get?_eq_get hlt
  show (getChk all_blocks bid).map BlockResult.entropy = _
  rw [getChk, hx]
  rfl

/-- `_absorb_noise`'s fuse step with the in-range entropy lookups and the
guarded average division checked. -/
def fuseChk (prev curr : Region) (all_blocks : List BlockResult) :
    Option Region :=
  (entropiesChk (prev.blocks ++ curr.blocks) all_blocks).bind (fun es =>
    (if es = [] then some (0 : ℚ) else divChk es.sum (es.length : ℚ)).bind (fun _ =>
      some (fuseRegions prev curr all_blocks)))

/-- The checked fuse step always succeeds, with the pure result. -/
theorem fuseChk_eq (prev curr : Region) (all_blocks : List BlockResult) :
    fuseChk prev curr all_blocks = some (fuseRegions prev curr all_blocks) := by
  rw [fuseChk, entropiesChk_eq, Option.some_bind]
  split
  · rfl
  · rw [divChk_eq_some (length_cast_ne_zero (by assumption))]
    rfl

/-- The noise-absorption loop with its fuse steps checked. -/
def absorbGoChk (all_blocks : List BlockResult) (prev : Region) :
    List Region → Option (List Region)
  | [] => some [prev]
  | curr :: rest =>
    if prev.wipe_type = curr.wipe_type ∧ gapBlocks prev curr ≤ (MAX_NORMAL_GAP : ℤ) then
      (fuseChk prev curr all_blocks).bind (fun f => absorbGoChk all_blocks f rest)
    else
      (absorbGoChk all_blocks curr rest).bind (fun tl => some (prev :: tl))

/-- The checked absorption loop always succeeds, with the pure result. -/
theorem absorbGoChk_eq (all_blocks : List BlockResult) (prev : Region)
    (l : List Region) :
    absorbGoChk all_blocks prev l = some (absorbGo all_blocks prev l) := by
  induction l generalizing prev with
  | nil => rfl
  | cons curr rest ih =>
    rw [absorbGoChk, absorbGo]
    split
    · rw [fuseChk_eq, Option.some_bind]
      exact ih _
    · rw [ih curr, Option.some_bind]

/-- The multi-pass synthesis step with its lookups and division checked. -/
def mkMultiPassChk (first : Region) (ext : List Region)
    (all_blocks : List BlockResult) : Option Region :=
  (entropiesChk (((first :: ext).map Region.blocks).flatten) all_blocks).bind (fun es =>
    (if es = [] then some (0 : ℚ) else divChk es.sum (es.length : ℚ)).bind (fun _ =>
      some (mkMultiPassRegion first ext all_blocks)))

/-- The checked synthesis step always succeeds. -/
theorem mkMultiPassChk_eq (first : Region) (ext : List Region)
    (all_blocks : List BlockResult) :
    mkMultiPassChk first ext all_blocks =
      some (mkMultiPassRegion first ext all_blocks) := by
  rw [mkMultiPassChk, entropiesChk_eq, Option.some_bind]
  split
  · rfl
  · rw [divChk_eq_some (length_cast_ne_zero (by assumption))]
    rfl

/-- The fuelled multi-pass detection loop with synthesis steps checked. -/
def detectGoChkF (all_blocks : List BlockResult) :
    ℕ → List Region → Option (List Region)
  | 0, _ => some []
  | _ + 1, [] => some []
  | fuel + 1, r :: rest =>
    if MULTI_PASS_MIN_BANDS ≤ (r :: (bandExtend r rest).1).length then
      (mkMultiPassChk r (bandExtend r rest).1 all_blocks).bind (fun s =>
        (detectGoChkF all_blocks fuel (bandExtend r rest).2).bind (fun tl =>
          some (s :: tl)))
    else
      (detectGoChkF all_blocks fuel rest).bind (fun tl => some (r :: tl))

/-- The checked detection loop always succeeds, with the pure result. -/
theorem detectGoChkF_eq (all_blocks : List BlockResult) (fuel : ℕ)
    (l : List Region) :
    detectGoChkF all_blocks fuel l = some (detectGoF all_blocks fuel l) := by
  induction fuel generalizing l with
  | zero => rfl
  | succ fuel ih =>
    match l with
    | [] => rfl
    | r :: rest =>
      rw [detectGoChkF, detectGoF]
      split
      · rw [mkMultiPassChk_eq, Option.some_bind, ih, Option.some_bind]
      · rw [ih rest, Option.some_bind]

/-- `_compute_confidence`'s per-region step with its lookups and guarded
divisions checked. -/
def setConfidenceChk (all_blocks : List BlockResult) (r : Region) :
    Option Region :=
  if r.blocks.filter (fun bid => decide (bid < all_blocks.length)) = [] then
    some (setConfidence all_blocks r)
  else
    ((r.blocks.filter (fun bid => decide (bid < all_blocks.length))).mapM
      (fun bid => (getChk all_blocks bid).map BlockResult.confidence)).bind (fun confs =>
    (divChk confs.sum (confs.length : ℚ)).bind (fun _ =>
    (divChk
      (((r.blocks.filter (fun bid => decide (bid < all_blocks.length))).filter
        (fun bid => ((all_blocks.get? bid).getD default).is_suspicious)).length : ℚ)
      ((r.blocks.filter (fun bid => decide (bid < all_blocks.length))).length : ℚ)).bind
        (fun _ => some (setConfidence all_blocks r))))

/-- The checked confidence step always succeeds. -/
theorem setConfidenceChk_eq (all_blocks : List BlockResult) (r : Region) :
    setConfidenceChk all_blocks r = some (setConfidence all_blocks r) := by
  rw [setConfidenceChk]
  split
  · rfl
  · have hne : r.blocks.filter (fun bid => decide (bid < all_blocks.length)) ≠ [] :=
      by assumption
    rw [mapM_eq_some_map _ _
      (fun bid => ((all_blocks.get? bid).getD default).confidence)
      (by
        intro bid hbid
        have hlt : bid < all_blocks.length := by
          have := List.of_mem_filter hbid
          simpa using this
        have hx : all_blocks.get? bid = some (all_blocks.get ⟨bid, hlt⟩) :=
          List.get?_eq_get hlt
        show (all_blocks.get? bid).map BlockResult.confidence =
          some (((all_blocks.get? bid).getD default).confidence)
        rw [hx]
        rfl)]
    rw [Option.some_bind]
    have hlen : (((r.blocks.filter (fun bid => decide (bid < all_blocks.length))).map
        (fun bid => ((all_blocks.get? bid).getD default).confidence)).length : ℚ) ≠ 0 := by
      have h0 : ((r.blocks.filter (fun bid => decide (bid < all_blocks.length))).map
          (fun bid => ((all_blocks.get? bid).getD default).confidence)) ≠ [] := by
        simpa using hne
      exact length_cast_ne_zero h0
    rw [divChk_eq_some hlen, Option.some_bind,
      divChk_eq_some (length_cast_ne_zero hne), Option.some_bind]

/-- `aggregate` with every division and list index checked. -/
def aggregateChk (results : List BlockResult) : Option (List Region) :=
  match results with
  | [] => some []
  | _ =>
    (mergeChkF 0 results.length results).bind (fun raw =>
    (match raw with
     | [] => some []
     | r0 :: rest => absorbGoChk results r0 rest).bind (fun absorbed =>
    (if (filterBySize absorbed).length < MULTI_PASS_MIN_BANDS then
        some (filterBySize absorbed)
      else detectGoChkF results (filterBySize absorbed).length
        (filterBySize absorbed)).bind (fun with_multi =>
    ((suppressFalsePositives with_multi).mapM (setConfidenceChk results)).bind
      (fun scored => some (assignIds 1 scored)))))

/-- The checked aggregation pipeline always succeeds, with the pure
result. -/
theorem aggregateChk_eq (results : List BlockResult) :
    aggregateChk results = some (aggregate results) := by
  match results with
  | [] => rfl
  | b :: rest =>
    rw [aggregateChk, mergeChkF_eq, Option.some_bind]
    have habs : (match mergeConsecutive 0 (b :: rest) with
        | [] => some []
        | r0 :: rs => absorbGoChk (b :: rest) r0 rs) =
        some (absorbNoise (mergeConsecutive 0 (b :: rest)) (b :: rest)) := by
      unfold absorbNoise
      match mergeConsecutive 0 (b :: rest) with
      | [] => rfl
      | r0 :: rs => exact absorbGoChk_eq _ _ _
    rw [show mergeConsecutiveF 0 (b :: rest).length (b :: rest) =
      mergeConsecutive 0 (b :: rest) from rfl]
    rw [habs, Option.some_bind]
    have hdet : (if (filterBySize (absorbNoise (mergeConsecutive 0 (b :: rest))
          (b :: rest))).length < MULTI_PASS_MIN_BANDS then
        some (filterBySize (absorbNoise (mergeConsecutive 0 (b :: rest)) (b :: rest)))
      else detectGoChkF (b :: rest) (filterBySize (absorbNoise
          (mergeConsecutive 0 (b :: rest)) (b :: rest))).length
        (filterBySize (absorbNoise (mergeConsecutive 0 (b :: rest)) (b :: rest)))) =
        some (detectMultiPass (filterBySize (absorbNoise
          (mergeConsecutive 0 (b :: rest)) (b :: rest))) (b :: rest)) := by
      unfold detectMultiPass
      split
      · rfl
      · exact detectGoChkF_eq _ _ _
    rw [hdet, Option.some_bind]
    rw [mapM_eq_some_map _ _ (setConfidence (b :: rest))
      (fun x _ => setConfidenceChk_eq _ x)]
    rfl
    exact fun hcontra => List.noConfusion hcontra

/-- The `verdict_order` list of `compute_score`. -/
def verdictOrder : List Verdict := [NEGLIGIBLE, LOW, MEDIUM, HIGH]

/-- Every verdict is found in `verdict_order` at its index. -/
theorem verdictOrder_findIdx (v : Verdict) :
    verdictOrder.findIdx? (fun x => decide (x = v)) = some (verdictIdx v) := by
  cases v <;> rfl

/-- `compute_score` with its guarded divisions and the two
`verdict_order.index` lookups plus the final table lookup checked. -/
def computeScoreChk (blocks : List BlockResult) (regions : List Region) :
    Option ScanStats :=
  if blocks.length = 0 then some emptyStats
  else
    (divChk ((suspiciousOf blocks).length : ℚ) (blocks.length : ℚ)).bind (fun _ =>
    (if 0 < (suspiciousOf blocks).length then
        divChk (((suspiciousOf blocks).map BlockResult.entropy).sum)
          ((suspiciousOf blocks).length : ℚ)
      else some 0).bind (fun _ =>
    (if regions ≠ [] then
        divChk ((regions.map Region.confidence).sum) (regions.length : ℚ)
      else some 0).bind (fun _ =>
    (verdictOrder.findIdx? (fun x => decide (x =
        scoreVerdict (compute_score blocks regions).intent_score))).bind (fun i1 =>
    (verdictOrder.findIdx? (fun x => decide (x =
        densityVerdict (compute_score blocks regions).wipe_density
          (suspiciousOf blocks).length))).bind (fun i2 =>
    (verdictOrder.get? (max i1 i2)).bind (fun _ =>
      some (compute_score blocks regions)))))))

/-- The checked scorer always succeeds, with the pure result. -/
theorem computeScoreChk_eq (blocks : List BlockResult) (regions : List Region) :
    computeScoreChk blocks regions = some (compute_score blocks regions) := by
  rw [computeScoreChk]
  split
  · rw [compute_score, if_pos ‹blocks.length = 0›]
  · have hb : blocks ≠ [] := by
      intro hc
      exact ‹¬blocks.length = 0› (by rw [hc]; rfl)
    rw [divChk_eq_some (length_cast_ne_zero hb), Option.some_bind]
    have h2 : (if 0 < (suspiciousOf blocks).length then
        divChk (((suspiciousOf blocks).map BlockResult.entropy).sum)
          ((suspiciousOf blocks).length : ℚ)
      else some 0).isSome = true := by
      split
      · rw [divChk_eq_some]
        · rfl
        · have : (suspiciousOf blocks).length ≠ 0 := Nat.pos_iff_ne_zero.mp ‹_›
          exact_mod_cast this
      · rfl
    obtain ⟨v2, hv2⟩ := Option.isSome_iff_exists.mp h2
    rw [hv2, Option.some_bind]
    have h3 : (if regions ≠ [] then
        divChk ((regions.map Region.confidence).sum) (regions.length : ℚ)
      else some 0).isSome = true := by
      split
      · exact divChk_eq_some (length_cast_ne_zero ‹_›) ▸ rfl
      · rfl
    obtain ⟨v3, hv3⟩ := Option.isSome_iff_exists.mp h3
    rw [hv3, Option.some_bind]
    rw [verdictOrder_findIdx, Option.some_bind, verdictOrder_findIdx,
      Option.some_bind]
    have h4 : ∀ a b : Verdict,
        (verdictOrder.get? (max (verdictIdx a) (verdictIdx b))).isSome = true := by
      intro a b
      cases a <;> cases b <;> rfl
    obtain ⟨v4, hv4⟩ := Option.isSome_iff_exists.mp (h4 _ _)
    rw [hv4, Option.some_bind]

-- ─────────────────────────────────────────────────────────────────────────
-- Claim C9
-- ─────────────────────────────────────────────────────────────────────────

/-- C9: the classifier, the aggregator and the scorer are total — the
instrumented versions, in which every data-dependent division, every list
index into the classifier output, and the scorer's `verdict_order` lookups
carry an explicit error branch, always succeed and return exactly the pure
embedding's result.  Every error branch is unreachable because the source
guards it (emptiness checks before divisions, `bid < len` filters before
indexing, structurally non-empty runs). -/
theorem C9_pipeline_total :
    (∀ (block_id offset : ℕ) (data : List ℕ) (sig : EntropySignals),
      classifyChk block_id offset data sig =
        some (classify_block block_id offset data sig)) ∧
    (∀ results : List BlockResult,
      aggregateChk results = some (aggregate results)) ∧
    (∀ (blocks : List BlockResult) (regions : List Region),
      computeScoreChk blocks regions = some (compute_score blocks regions)) :=
  ⟨classifyChk_eq, aggregateChk_eq, computeScoreChk_eq⟩

-- ─────────────────────────────────────────────────────────────────────────
-- Claim C7 (corrected)
-- ─────────────────────────────────────────────────────────────────────────

/-- Modelled from the spec: a member block id of a region re-enters the
synthetic flat stream carrying its region's wipe type and the suspicious
flag. -/
def synthSusp (r : Region) (bid : ℕ) : BlockResult :=
  { block_id := bid, offset := bid * BLOCK_SIZE, wipe_type := r.wipe_type,
    entropy := r.avg_entropy, confidence := r.confidence,
    dominant_byte := 0, dominant_pct := 0, is_suspicious := true,
    zeroFrac := 0, ffFrac := 0 }

/-- Modelled from the spec: a block id outside every region re-enters the
synthetic flat stream as a non-suspicious NORMAL block. -/
def synthNorm (bid : ℕ) : BlockResult :=
  { block_id := bid, offset := bid * BLOCK_SIZE, wipe_type := NORMAL,
    entropy := 0, confidence := 0,
    dominant_byte := 0, dominant_pct := 0, is_suspicious := false,
    zeroFrac := 0, ffFrac := 0 }

/-- Membership of a block id in a region's member list. -/
def memberOf (bid : ℕ) (r : Region) : Bool := decide (bid ∈ r.blocks)

/-- The synthetic block emitted for one block id. -/
def synthAt (regions : List Region) (bid : ℕ) : BlockResult :=
  match regions.find? (memberOf bid) with
  | some r => synthSusp r bid
  | none => synthNorm bid

/-- Modelled from the spec: re-express aggregated regions as a flat stream
of `total` synthetic BlockResults, one per block id. -/
def reflatten (total : ℕ) (regions : List Region) : List BlockResult :=
  (List.range total).map (synthAt regions)

/-- The region identity the idempotence claim compares: offsets, wipe type
and member blocks (`id`, `avg_entropy` and `confidence` are recomputed
metadata). -/
def regionKey (r : Region) : ℕ × ℕ × WipeType × List ℕ :=
  (r.start_offset, r.end_offset, r.wipe_type, r.blocks)

/-- Two region lists describe the same region set. -/
def sameRegionSet (rs1 rs2 : List Region) : Prop :=
  rs1.map regionKey = rs2.map regionKey

instance (rs1 rs2 : List Region) : Decidable (sameRegionSet rs1 rs2) := by
  unfold sameRegionSet; infer_instance

/-- `_merge_consecutive` ignores a non-suspicious prefix. -/
theorem mergeConsecutive_skip_nonsusp (rid : ℕ) (pre rest : List BlockResult)
    (h : ∀ b ∈ pre, b.is_suspicious = false) :
    mergeConsecutive rid (pre ++ rest) = mergeConsecutive rid rest := by
  induction pre with
  | nil => rfl
  | cons b bs ih =>
    rw [List.cons_append, mergeConsecutive_cons,
      if_neg (by simp [h b (List.mem_cons_self b bs)])]
    exact ih (fun x hx => h x (List.mem_cons_of_mem _ hx))

/-- A wholly non-suspicious stream yields no region. -/
theorem mergeConsecutive_none (rid : ℕ) (l : List BlockResult)
    (h : ∀ b ∈ l, b.is_suspicious = false) :
    mergeConsecutive rid l = [] := by
  have h0 := mergeConsecutive_skip_nonsusp rid l [] h
  rw [List.append_nil] at h0
  rw [h0]
  rfl

/-- `takeWhile`/`dropWhile` on an all-true prefix followed by a list whose
head fails the predicate. -/
theorem takeWhile_append_of_all {α : Type} (p : α → Bool) (l1 l2 : List α)
    (h1 : ∀ x ∈ l1, p x = true) (h2 : ∀ y, l2.head? = some y → p y = false) :
    (l1 ++ l2).takeWhile p = l1 ∧ (l1 ++ l2).dropWhile p = l2 := by
  induction l1 with
  | nil =>
    cases l2 with
    | nil => exact ⟨rfl, rfl⟩
    | cons y ys =>
      have hy := h2 y rfl
      exact ⟨by simp [List.takeWhile_cons, hy], by simp [List.dropWhile_cons, hy]⟩
  | cons x xs ih =>
    have hx := h1 x (List.mem_cons_self x xs)
    have ih' := ih (fun z hz => h1 z (List.mem_cons_of_mem _ hz))
    constructor
    · rw [List.cons_append, List.takeWhile_cons, hx]
      simp only [ite_true]
      rw [ih'.1]
    · rw [List.cons_append, List.dropWhile_cons, hx]
      simp only [ite_true]
      exact ih'.2

/-- `_merge_consecutive` on one synthetic suspicious run followed by
non-suspicious blocks: exactly the run's region. -/
theorem mergeConsecutive_synth_run (rid : ℕ) (r : Region) (a m : ℕ)
    (post : List BlockResult) (hpost : ∀ b ∈ post, b.is_suspicious = false) :
    mergeConsecutive rid ((List.range' a (m + 1)).map (synthSusp r) ++ post) =
      [mkRunRegion rid (synthSusp r a)
        ((List.range' (a + 1) m).map (synthSusp r))] := by
  rw [List.range'_succ, List.map_cons, List.cons_append, mergeConsecutive_cons,
    if_pos (show (synthSusp r a).is_suspicious = true from rfl)]
  have hTD := takeWhile_append_of_all (sameRun (synthSusp r a).wipe_type)
      ((List.range' (a + 1) m).map (synthSusp r)) post
      (fun x hx => by
        obtain ⟨bid, -, rfl⟩ := List.mem_map.mp hx
        simp [sameRun, synthSusp])
      (fun y hy => by
        cases post with
        | nil => exact absurd hy (by simp)
        | cons b bs =>
          simp only [List.head?_cons, Option.some.injEq] at hy
          rw [← hy]
          show (b.is_suspicious && _) = false
          rw [hpost b (List.mem_cons_self b bs)]
          rfl)
  rw [hTD.1, hTD.2, mergeConsecutive_none (rid + 1) post hpost]

/-- The synthetic stream of a single region with members `range' a (m+1)`:
a NORMAL prefix, the suspicious members, a NORMAL tail. -/
theorem reflatten_single (r : Region) (a m k : ℕ)
    (hblocks : r.blocks = List.range' a (m + 1)) :
    reflatten (a + (m + 1) + k) [r] =
      (List.range' 0 a).map synthNorm ++
      ((List.range' a (m + 1)).map (synthSusp r) ++
        (List.range' (a + (m + 1)) k).map synthNorm) := by
  have h1 := List.range'_append_1 0 a ((m + 1) + k)
  rw [Nat.zero_add] at h1
  have h2 := List.range'_append_1 a (m + 1) k
  have hsplit : List.range' 0 (a + (m + 1) + k) =
      List.range' 0 a ++ (List.range' a (m + 1) ++ List.range' (a + (m + 1)) k) := by
    rw [show a + (m + 1) + k = m + 1 + k + a from by omega, ← h1,
      show m + 1 + k = k + (m + 1) from by omega, ← h2]
  rw [reflatten, List.range_eq_range', hsplit, List.map_append, List.map_append]
  congr 1
  · refine List.map_congr_left (fun bid hbid => ?_)
    have hb := List.mem_range'_1.mp hbid
    have hneg : ¬ memberOf bid r = true := by
      simp only [memberOf, decide_eq_true_eq, hblocks, List.mem_range'_1]
      omega
    show (match List.find? (memberOf bid) [r] with
          | some r0 => synthSusp r0 bid
          | none => synthNorm bid) = synthNorm bid
    rw [List.find?_cons_of_neg _ hneg, List.find?_nil]
  congr 1
  · refine List.map_congr_left (fun bid hbid => ?_)
    have hb := List.mem_range'_1.mp hbid
    have hpos : memberOf bid r = true := by
      simp only [memberOf, decide_eq_true_eq, hblocks, List.mem_range'_1]
      omega
    show (match List.find? (memberOf bid) [r] with
          | some r0 => synthSusp r0 bid
          | none => synthNorm bid) = synthSusp r bid
    rw [List.find?_cons_of_pos _ hpos]
  · refine List.map_congr_left (fun bid hbid => ?_)
    have hb := List.mem_range'_1.mp hbid
    have hneg : ¬ memberOf bid r = true := by
      simp only [memberOf, decide_eq_true_eq, hblocks, List.mem_range'_1]
      omega
    show (match List.find? (memberOf bid) [r] with
          | some r0 => synthSusp r0 bid
          | none => synthNorm bid) = synthNorm bid
    rw [List.find?_cons_of_neg _ hneg, List.find?_nil]

/-- `aggregate` on a non-empty input is the six-stage pipeline. -/
theorem aggregate_ne_nil (results : List BlockResult) (h : results ≠ []) :
    aggregate results =
      assignIds 1 (computeConfidence (suppressFalsePositives
        (detectMultiPass
          (filterBySize (absorbNoise (mergeConsecutive 0 results) results))
          results)) results) := by
  cases results with
  | nil => exact absurd rfl h
  | cons b rest => rfl

/-- C7: corrected idempotence. `aggregate` is not idempotent on arbitrary
outputs (a multi-pass region's member list omits its internal gap ids, which
the second pass's noise absorption fuses back in — see the counterexample),
but it is idempotent on an output consisting of a single contiguous
strong-typed region: re-expressing such a region as a synthetic flat stream
and re-aggregating reproduces a region with the same `start_offset`,
`end_offset`, `wipe_type` and member blocks. -/
theorem C7_idempotent_amended (a m k : ℕ) (r : Region)
    (hn : MIN_REGION_BLOCKS ≤ m + 1)
    (ht : r.wipe_type ∈ STRONG_WIPE_TYPES)
    (hblocks : r.blocks = List.range' a (m + 1))
    (hso : r.start_offset = a * BLOCK_SIZE)
    (heo : r.end_offset = (a + m) * BLOCK_SIZE + (BLOCK_SIZE - 1)) :
    sameRegionSet (aggregate (reflatten (a + (m + 1) + k) [r])) [r] := by
  have hstream := reflatten_single r a m k hblocks
  have hpreNS : ∀ b ∈ (List.range' 0 a).map synthNorm, b.is_suspicious = false := by
    intro b hb
    obtain ⟨bid, -, rfl⟩ := List.mem_map.mp hb
    rfl
  have hpostNS : ∀ b ∈ (List.range' (a + (m + 1)) k).map synthNorm,
      b.is_suspicious = false := by
    intro b hb
    obtain ⟨bid, -, rfl⟩ := List.mem_map.mp hb
    rfl
  have hne : reflatten (a + (m + 1) + k) [r] ≠ [] := by
    rw [hstream]
    simp [List.range'_succ]
  set R0 := mkRunRegion 0 (synthSusp r a)
      ((List.range' (a + 1) m).map (synthSusp r)) with hR0def
  have hmerge : mergeConsecutive 0 (reflatten (a + (m + 1) + k) [r]) = [R0] := by
    rw [hstream, mergeConsecutive_skip_nonsusp 0 _ _ hpreNS,
      mergeConsecutive_synth_run 0 r a m _ hpostNS]
  have hR0blocks : R0.blocks = List.range' a (m + 1) := by
    rw [hR0def, mkRunRegion_blocks, List.map_cons, List.map_map]
    rw [show (BlockResult.block_id ∘ synthSusp r) = id from rfl, List.map_id,
      List.range'_succ]
    rfl
  have hR0start : R0.start_offset = a * BLOCK_SIZE := rfl
  have hR0type : R0.wipe_type = r.wipe_type := rfl
  have hrunEq : (synthSusp r a :: (List.range' (a + 1) m).map (synthSusp r)) =
      (List.range' a m).map (synthSusp r) ++ [synthSusp r (a + m)] := by
    rw [← List.map_cons, ← List.range'_succ, List.range'_concat, Nat.one_mul,
      List.map_append]
    rfl
  have hlastOpt : (synthSusp r a :: (List.range' (a + 1) m).map (synthSusp r)).getLast? =
      some (synthSusp r (a + m)) := by
    rw [hrunEq, List.getLast?_concat]
  have hlast : (synthSusp r a :: (List.range' (a + 1) m).map (synthSusp r)).getLast
      (List.cons_ne_nil _ _) = synthSusp r (a + m) := by
    have h2 := List.getLast?_eq_getLast
        (synthSusp r a :: (List.range' (a + 1) m).map (synthSusp r))
        (List.cons_ne_nil _ _)
    rw [h2] at hlastOpt
    exact Option.some.inj hlastOpt
  have hR0end : R0.end_offset = (a + m) * BLOCK_SIZE + (BLOCK_SIZE - 1) := by
    show ((synthSusp r a :: (List.range' (a + 1) m).map (synthSusp r)).getLast
        (List.cons_ne_nil _ _)).block_id * BLOCK_SIZE + BLOCK_SIZE - 1 = _
    rw [hlast]
    show (a + m) * BLOCK_SIZE + BLOCK_SIZE - 1 = _
    unfold BLOCK_SIZE
    omega
  have hR0count : R0.block_count = m + 1 := by
    show (synthSusp r a :: (List.range' (a + 1) m).map (synthSusp r)).length = m + 1
    rw [List.length_cons, List.length_map, List.length_range']
  have habs : absorbNoise [R0] (reflatten (a + (m + 1) + k) [r]) = [R0] := rfl
  have hfil : filterBySize [R0] = [R0] := by
    unfold filterBySize
    rw [List.filter_cons_of_pos (by
        simp only [decide_eq_true_eq]
        rw [hR0count]
        exact hn),
      List.filter_nil]
  have hdet : detectMultiPass [R0] (reflatten (a + (m + 1) + k) [r]) = [R0] := by
    unfold detectMultiPass
    rw [if_pos (by simp [MULTI_PASS_MIN_BANDS])]
  have hnotPartial : (decide (R0.wipe_type ∈ PARTIAL_WIPE_TYPES)) = false := by
    rw [hR0type]
    simp only [STRONG_WIPE_TYPES, List.mem_cons, List.not_mem_nil, or_false] at ht
    rcases ht with h | h | h | h <;> rw [h] <;> rfl
  have hsup : suppressFalsePositives [R0] = [R0] := by
    unfold suppressFalsePositives
    dsimp only
    rw [List.filter_cons_of_pos (by
        simp only [hnotPartial, Bool.not_false, Bool.true_or]),
      List.filter_nil]
  rw [aggregate_ne_nil _ hne, hmerge, habs, hfil, hdet, hsup]
  obtain ⟨hb, hs, he, hw, -⟩ :=
    setConfidence_fields (reflatten (a + (m + 1) + k) [r]) R0
  unfold sameRegionSet
  show [regionKey { setConfidence (reflatten (a + (m + 1) + k) [r]) R0 with id := 1 }] =
    [regionKey r]
  refine congrArg (fun x => [x]) ?_
  show ((setConfidence (reflatten (a + (m + 1) + k) [r]) R0).start_offset,
        (setConfidence (reflatten (a + (m + 1) + k) [r]) R0).end_offset,
        (setConfidence (reflatten (a + (m + 1) + k) [r]) R0).wipe_type,
        (setConfidence (reflatten (a + (m + 1) + k) [r]) R0).blocks) =
      (r.start_offset, r.end_offset, r.wipe_type, r.blocks)
  rw [hb, hs, he, hw, hR0blocks, hR0start, hR0end, hR0type, hso, heo, hblocks]

/-- An FF_WIPE classifier output for block `i` (as produced for an
all-0xFF 512-byte block). -/
def fb (i : ℕ) : BlockResult := ⟨i, 512 * i, FF_WIPE, 0, 1, 255, 1, true, 0, 1⟩

/-- 50 blocks: three 16-block strong bands (ZERO, FF, ZERO at ids 0-15,
17-32, 34-49) separated by single NORMAL blocks — aggregated into one
MULTI_PASS region whose member list omits the gap ids 16 and 33. -/
def c7Blocks : List BlockResult :=
  (List.range 50).map (fun i =>
    if i < 16 then zb i
    else if i = 16 then nb i
    else if i < 33 then fb i
    else if i = 33 then nb i
    else zb i)

section
attribute [local semireducible] Rat.add Rat.mul Rat.sub Rat.inv Rat.ofScientific

/-- C7 counterexample: on the three-band scan the first pass produces one
MULTI_PASS region without the gap ids 16 and 33, but re-aggregating the
synthetic flat stream fuses those ids in (noise absorption), so the second
pass's member list — hence the region set — differs. -/
theorem C7_counterexample :
    ¬ sameRegionSet (aggregate (reflatten 50 (aggregate c7Blocks)))
        (aggregate c7Blocks) := by
  decide

end

/-- A single contiguous 16-block ZERO_WIPE region (member ids 2-17). -/
def c7W : Region :=
  { id := 1, start_offset := 2 * 512, end_offset := 17 * 512 + 511,
    size := 16 * 512, wipe_type := ZERO_WIPE, block_count := 16,
    avg_entropy := 0, confidence := 1, blocks := List.range' 2 16 }

/-- C7 witness: the amended idempotence at a concrete single ZERO_WIPE
region inside a 20-block address space. -/
theorem C7_witness :
    sameRegionSet (aggregate (reflatten 20 [c7W])) [c7W] :=
  C7_idempotent_amended 2 15 2 c7W (by decide) (by decide) (by decide)
    (by decide) (by decide)
